import Mathlib

/-!
# Verification of the RGB565 framebuffer converters

Shallow embedding of `fb2png.c` (palette construction, index mapping and
channel widening), `fb2bmp.c` (the two BMP headers and the RGB565 to RGB555
repacking) and `fblight.c` (the tone filter), together with the properties
proved about them.

## Modelling conventions

* An `int16_t` pixel is an `Int`; two pixels are compared as the C code
  compares them, by value.
* An input `FILE*` opened on a raw dump is the list of the complete 2-byte
  items it holds.  `fread(&datain, 2, 1, inptr)` takes the head of the unread
  part and returns 0 exactly when no complete item is left; `exit(-1)` is the
  result `none`.
* `fseek(inptr, 0L, SEEK_SET)` at the top of a function means the function
  runs over the whole content, which is therefore its argument.
* The colour buffer `int16_t* colour_array` is a list holding every cell of
  the allocation (stale cells included); `colour_array[k] = v` is `List.set`.
* Bitwise operators act on the two's-complement bit pattern of the promoted
  32-bit `int` (`promoted_bits`); storing an `int` into an `int16_t` keeps the
  low 16 bits (`int16_of_raw`); `>>` on a signed value is the arithmetic shift.
* An output `FILE*` is the list of the items written to it, in order.
-/

namespace Fb2Png

/-- The constant `#define MAX_PALETTE_SIZE 256` of `fb2png.c`. -/
def MAX_PALETTE_SIZE : Nat := 256

/-- The scan `for (i = ...; i < num_colours; i++) if (datain == colour_array[i]) break;`
of `fb2png.c` (lines 94-96 and 155-157), entered with the current value of `i`.
The first argument bounds the iterations that are still allowed; the value
returned is `i` when the loop is left. -/
def scan_colours (datain : Int) (colour_array : List Int) (num_colours : Nat) :
    Nat → Nat → Nat
  | 0, i => i
  | k + 1, i =>
    if i < num_colours then
      if datain = colour_array.getD i 0 then i
      else scan_colours datain colour_array num_colours k (i + 1)
    else i

/-- The complete `for` scan, started at `i = 0`.  At most `num_colours`
iterations are ever needed. -/
def find_colour (datain : Int) (colour_array : List Int) (num_colours : Nat) : Nat :=
  scan_colours datain colour_array num_colours num_colours 0

/-- The colour buffer together with the counter `num_colours`. -/
structure ColourTable where
  colour_array : List Int
  num_colours : Nat
deriving DecidableEq, Repr

/-- The entries in use: `colour_array[0 .. num_colours)`. -/
def ColourTable.entries (t : ColourTable) : List Int :=
  t.colour_array.take t.num_colours

/-- Lines 94-101 of `fb2png.c`: the part of the loop body of
`create_unique_colors_array` that follows a successful read of `datain`. -/
def create_unique_colors_body (datain : Int) (t : ColourTable) : ColourTable :=
  let i := find_colour datain t.colour_array t.num_colours
  if i = t.num_colours then
    { colour_array := t.colour_array.set t.num_colours datain,
      num_colours := t.num_colours + 1 }
  else t

/-- What `create_unique_colors_array` leaves behind when it returns: the colour
table and the part of the input that has not been read. -/
structure CreateResult where
  table : ColourTable
  unread : List Int
deriving DecidableEq, Repr

/-- The `while ((num_pixels--) && (num_colours < MAX_PALETTE_SIZE))` loop of
`create_unique_colors_array` (lines 87-102), with the palette capacity as the
parameter `cap`.  The first list is the unread part of the input.  The
condition tests the old value of the `int num_pixels` against 0 and decrements
it; a read that finds no pixel is the `exit(-1)` of line 92, the result `none`. -/
def create_unique_colors_loop (cap : Nat) : List Int → Int → ColourTable → Option CreateResult
  | [], num_pixels, t =>
    if num_pixels ≠ 0 ∧ t.num_colours < cap then none
    else some { table := t, unread := [] }
  | datain :: inptr, num_pixels, t =>
    if num_pixels ≠ 0 ∧ t.num_colours < cap then
      create_unique_colors_loop cap inptr (num_pixels - 1) (create_unique_colors_body datain t)
    else some { table := t, unread := datain :: inptr }

/-- The function `create_unique_colors_array` with the capacity as a parameter:
`num_colours` starts at 0 and the loop runs from the start of the file. -/
def create_unique_colors_array_cap (cap : Nat) (file : List Int) (colour_array : List Int)
    (num_pixels : Int) : Option CreateResult :=
  create_unique_colors_loop cap file num_pixels { colour_array := colour_array, num_colours := 0 }

/-- The function `create_unique_colors_array` of `fb2png.c` (lines 80-105). -/
def create_unique_colors_array (file : List Int) (colour_array : List Int)
    (num_pixels : Int) : Option CreateResult :=
  create_unique_colors_array_cap MAX_PALETTE_SIZE file colour_array num_pixels

/-- The value of `i` at line 164 of `fb2png.c`: the position found by the scan,
replaced by 0 when the scan ran to `num_colours` (lines 155-162). -/
def fill_index (datain : Int) (colour_array : List Int) (num_colours : Nat) : Nat :=
  let i := find_colour datain colour_array num_colours
  if i = num_colours then 0 else i

/-- The `while (num_pixels--)` loop of `fill_raw_image_array` (lines 149-165).
The result lists the bytes stored through `rawimage_array`, in order; the store
`*rawimage_array++ = i` converts the `int` to `unsigned char`, that is modulo 256. -/
def fill_raw_image_loop (colour_array : List Int) (num_colours : Nat) :
    List Int → Int → Option (List Nat)
  | [], num_pixels => if num_pixels ≠ 0 then none else some []
  | datain :: inptr, num_pixels =>
    if num_pixels ≠ 0 then
      match fill_raw_image_loop colour_array num_colours inptr (num_pixels - 1) with
      | none => none
      | some raster => some (fill_index datain colour_array num_colours % 256 :: raster)
    else some []

/-- The function `fill_raw_image_array` of `fb2png.c` (lines 142-166).  The
`int num_colours` it receives is the non-negative count returned by
`create_unique_colors_array`. -/
def fill_raw_image_array (file : List Int) (colour_array : List Int) (num_pixels : Int)
    (num_colours : Nat) : Option (List Nat) :=
  fill_raw_image_loop colour_array num_colours file num_pixels

/-- The first-occurrence de-duplication of a list of raw values: every value
is kept once, at the place where it is first seen. -/
def first_seen : List Int → List Int
  | [] => []
  | x :: xs => x :: (first_seen xs).filter (fun y => decide (y ≠ x))

/-- Lines 212 and 229 of `main` in `fb2png.c`: the palette pass followed by the
mapping pass over the same file, with the palette pass's buffer and count
handed to the mapping pass.  Either pass may exit. -/
def main_two_pass (file : List Int) (colour_array : List Int) (num_pixels : Int) :
    Option (ColourTable × List Nat) :=
  match create_unique_colors_array file colour_array num_pixels with
  | none => none
  | some r =>
    match fill_raw_image_array file r.table.colour_array num_pixels r.table.num_colours with
    | none => none
    | some raster => some (r.table, raster)

/-- The `int16_t` whose bit pattern is the 16-bit word `raw` (two's complement). -/
def int16_of_raw (raw : Nat) : Int :=
  if raw % 65536 < 32768 then ((raw % 65536 : Nat) : Int) else ((raw % 65536 : Nat) : Int) - 65536

/-- The bit pattern of an `int16_t` after the integer promotion to a 32-bit
`int` (sign extension), as a natural number below `2 ^ 32`. -/
def promoted_bits (v : Int) : Nat := (v % 4294967296).toNat

/-- Lines 118-120 of `fb2png.c`: the arguments `red, grn, blu, 255` handed to
`lodepng_palette_add` for one colour.  The masks are non-negative `int`
constants, so each masked value is non-negative and `>>` is a plain shift;
the cast to `unsigned char` is the reduction modulo 256. -/
def palette_entry (c : Int) : Nat × Nat × Nat × Nat :=
  let red := ((promoted_bits c &&& 0xf800) >>> 8) % 256
  let grn := ((promoted_bits c &&& 0x07e0) >>> 3) % 256
  let blu := ((promoted_bits c &&& 0x001f) <<< 3) % 256
  (red, grn, blu, 255)

/-- The loop of `load_png_palettes` (lines 116-127 of `fb2png.c`): the entries
passed to `lodepng_palette_add`, for `i = 0 .. num_colors - 1` in order. -/
def load_png_palettes (color_array : List Int) (num_colors : Nat) :
    List (Nat × Nat × Nat × Nat) :=
  (List.range num_colors).map (fun i => palette_entry (color_array.getD i 0))

/-- The palette invariant of the builder loop: the entries in use are pairwise
distinct, their count does not exceed `MAX_PALETTE_SIZE`, and the buffer has
the `MAX_PALETTE_SIZE` cells that `main` allocates for it (line 205). -/
def PaletteInvariant (t : ColourTable) : Prop :=
  t.entries.Nodup ∧ t.num_colours ≤ MAX_PALETTE_SIZE ∧
    MAX_PALETTE_SIZE ≤ t.colour_array.length

/-- The 16-bit word that `fwrite(&v, 2, 1, fp)` stores for the `int16_t` value
`v`: its two's-complement bit pattern. -/
def raw_of_int16 (v : Int) : Nat := (v % 65536).toNat

end Fb2Png

namespace Fb2Bmp

open Fb2Png

/-- The constant `#define BMP_HEADER_SIZE 14` of `fb2bmp.c`. -/
def BMP_HEADER_SIZE : Nat := 14

/-- The constant `#define DIB_HEADER_SIZE 40` of `fb2bmp.c`. -/
def DIB_HEADER_SIZE : Nat := 40

/-- The result of an `int` addition or multiplication, reduced to the 32-bit
two's-complement range. -/
def wrap_int32 (x : Int) : Int := (x + 2147483648) % 4294967296 - 2147483648

/-- The assignment `c = v & 0xff;` to the `unsigned char c`. -/
def low_byte (v : Int) : Nat := (promoted_bits v &&& 0xff) % 256

/-- The four bytes written by the pattern `c = v & 0xff; c = (v >> 8) & 0xff;
c = (v >> 16) & 0xff; c = (v >> 24) & 0xff;` with a `fwrite` after each. -/
def four_bytes (v : Int) : List Nat :=
  [low_byte v, low_byte (v >>> (8 : Nat)), low_byte (v >>> (16 : Nat)),
    low_byte (v >>> (24 : Nat))]

/-- The function `write_bmp_header` of `fb2bmp.c` (lines 30-50): the bytes
written to `fp`, in order. -/
def write_bmp_header (datasize : Int) : List Nat :=
  let firstpart : List Nat := [0x42, 0x4d]
  let secondpart : List Nat := [0, 0, 0, 0, 0x36, 0, 0, 0]
  let bmpfilesize : Int :=
    wrap_int32 (((BMP_HEADER_SIZE + DIB_HEADER_SIZE : Nat) : Int) + datasize)
  firstpart ++ four_bytes bmpfilesize ++ secondpart

/-- The function `write_dib_header` of `fb2bmp.c` (lines 54-101): the bytes
written to `fp`, in order. -/
def write_dib_header (width height : Int) : List Nat :=
  let partone : List Nat := [1, 0, 16, 0, 0, 0, 0, 0]
  let parttwo : List Nat := [0x13, 0x0b, 0, 0, 0x13, 0x0b, 0, 0, 0, 0, 0, 0, 0, 0, 0, 0]
  [DIB_HEADER_SIZE % 256, 0, 0, 0] ++
    four_bytes width ++
    four_bytes (wrap_int32 (-1 * height)) ++
    partone ++
    four_bytes (wrap_int32 (wrap_int32 (width * height) * 2)) ++
    parttwo

/-- Lines 114-117 of `fb2bmp.c`: the `int16_t dataout` built from `datain`.
Each `dataout |= e` is computed on the promoted `int`s and stored back into
the `int16_t`. -/
def write_image_pixel (datain : Int) : Int :=
  let dataout : Int := 0
  let dataout := int16_of_raw (promoted_bits dataout ||| ((promoted_bits datain &&& 0xf800) >>> 1))
  let dataout := int16_of_raw (promoted_bits dataout ||| ((promoted_bits datain &&& 0x07c0) >>> 1))
  let dataout := int16_of_raw (promoted_bits dataout ||| (promoted_bits datain &&& 0x001f))
  dataout

/-- The function `write_image_data` of `fb2bmp.c` (lines 107-120) for a
non-negative `num_pixels`: the values of `dataout` written to `outptr`, in
order.  The first list is the unread part of `inptr`; the result of `fread` is
not tested, so a read that finds no pixel leaves `datain` as it was (the last
argument is the content of `datain` at the top of the loop). -/
def write_image_data : List Int → Nat → Int → List Int
  | _, 0, _ => []
  | [], num_pixels + 1, datain =>
    write_image_pixel datain :: write_image_data [] num_pixels datain
  | pixel :: inptr, num_pixels + 1, _ =>
    write_image_pixel pixel :: write_image_data inptr num_pixels pixel

/-- The unsigned value of four bytes, least-significant byte first. -/
def le32 (bytes : List Nat) : Nat :=
  bytes.getD 0 0 + 256 * bytes.getD 1 0 + 65536 * bytes.getD 2 0 + 16777216 * bytes.getD 3 0

/-- The signed (two's-complement) value of four bytes, least-significant byte
first. -/
def le32_signed (bytes : List Nat) : Int :=
  if le32 bytes < 2147483648 then (le32 bytes : Int) else (le32 bytes : Int) - 4294967296

end Fb2Bmp

namespace FbLight

open Fb2Png

/-- The constant `#define GREY_SIMILARITY_THRESHOLD 5` of `fblight.c`. -/
def GREY_SIMILARITY_THRESHOLD : Int := 5

/-- The function `correct_rgb_pixel` of `fblight.c` (lines 61-83): the values
left in `*red`, `*grn`, `*blu`.  The operands are the 6-bit values of the doc
comment, far from the limits of `int`. -/
def correct_rgb_pixel (red grn blu : Int) : Int × Int × Int :=
  if ((grn - red).natAbs : Int) < GREY_SIMILARITY_THRESHOLD ∧
      ((grn - blu).natAbs : Int) < GREY_SIMILARITY_THRESHOLD then
    let grn := 0x3f - grn
    let red := grn
    let blu := grn
    (red, grn, blu)
  else if red > 0x20 ∧ grn > 0x20 ∧ blu < 0x08 then
    let red := red >>> (1 : Nat)
    let grn := grn >>> (1 : Nat)
    let blu := 0
    (red, grn, blu)
  else (red, grn, blu)

/-- Lines 101-103 of `fblight.c`: the three `int`s extracted from `pixdata`. -/
def unpack_pixel (pixdata : Int) : Int × Int × Int :=
  let red : Int := (((promoted_bits pixdata &&& 0xf800) >>> 10 : Nat) : Int)
  let grn : Int := (((promoted_bits pixdata &&& 0x07e0) >>> 5 : Nat) : Int)
  let blu : Int := (((promoted_bits pixdata &&& 0x001f) <<< 1 : Nat) : Int)
  (red, grn, blu)

/-- Lines 107-109 of `fblight.c`: the `int16_t pixdata` rebuilt from the three
`int`s.  Every `(int16_t)` cast and every store into `pixdata` keeps the low 16
bits; `<<` shifts the promoted bit pattern and `>>` is the arithmetic shift. -/
def repack_pixel (red grn blu : Int) : Int :=
  let pixdata := int16_of_raw
    (promoted_bits (int16_of_raw (promoted_bits red &&& 0x3e)) <<< 10)
  let pixdata := int16_of_raw
    (promoted_bits pixdata ||| (promoted_bits (int16_of_raw (promoted_bits grn)) <<< 5))
  let pixdata := int16_of_raw
    (promoted_bits pixdata ||| promoted_bits (int16_of_raw (promoted_bits blu) >>> (1 : Nat)))
  pixdata

/-- Lines 101-109 of `fblight.c`: the value written for the pixel read. -/
def process_pixel (pixdata : Int) : Int :=
  let rgb := unpack_pixel pixdata
  let rgb := correct_rgb_pixel rgb.1 rgb.2.1 rgb.2.2
  repack_pixel rgb.1 rgb.2.1 rgb.2.2

/-- The `while (numpixels--)` loop of `process_file` (lines 95-112).  The list
is the unread part of `in_fp`; the result lists the values written to
`out_fp`; a read that finds no pixel is the `exit(-1)` of line 99. -/
def process_file_loop : List Int → Int → Option (List Int)
  | [], numpixels => if numpixels ≠ 0 then none else some []
  | pixdata :: in_fp, numpixels =>
    if numpixels ≠ 0 then
      match process_file_loop in_fp (numpixels - 1) with
      | none => none
      | some out => some (process_pixel pixdata :: out)
    else some []

/-- The function `process_file` of `fblight.c` (lines 88-113), run on the whole
input and an output positioned at its start. -/
def process_file (file : List Int) (numpixels : Int) : Option (List Int) :=
  process_file_loop file numpixels

/-- The grey test of the filter on the 6-bit values of a pixel. -/
def is_grey (r6 g6 b6 : Int) : Prop :=
  ((g6 - r6).natAbs : Int) < GREY_SIMILARITY_THRESHOLD ∧
    ((g6 - b6).natAbs : Int) < GREY_SIMILARITY_THRESHOLD

/-- The yellow test of the filter on the 6-bit values of a pixel. -/
def is_yellow (r6 g6 b6 : Int) : Prop := r6 > 0x20 ∧ g6 > 0x20 ∧ b6 < 0x08

end FbLight

namespace Fb2Png

/-! ## The colour scan -/

theorem scan_colours_spec (datain : Int) (colour_array : List Int) (num_colours : Nat) :
    ∀ (k i : Nat), i ≤ num_colours → num_colours ≤ i + k →
      i ≤ scan_colours datain colour_array num_colours k i ∧
      scan_colours datain colour_array num_colours k i ≤ num_colours ∧
      (∀ j, i ≤ j → j < scan_colours datain colour_array num_colours k i →
        colour_array.getD j 0 ≠ datain) ∧
      (scan_colours datain colour_array num_colours k i < num_colours →
        colour_array.getD (scan_colours datain colour_array num_colours k i) 0 = datain) := by
  intro k
  induction k with
  | zero =>
    intro i h1 h2
    have hi : i = num_colours := by omega
    simp only [scan_colours]
    refine ⟨le_refl _, h1, ?_, ?_⟩
    · intro j hj1 hj2; omega
    · intro h; exact absurd h (by omega)
  | succ k ih =>
    intro i h1 h2
    simp only [scan_colours]
    by_cases hlt : i < num_colours
    · simp only [hlt, if_true]
      by_cases heq : datain = colour_array.getD i 0
      · simp only [heq, if_true]
        refine ⟨le_refl _, h1, ?_, ?_⟩
        · intro j hj1 hj2; omega
        · intro _; trivial
      · simp only [heq, if_false]
        obtain ⟨a, b, c, d⟩ := ih (i + 1) hlt (by omega)
        refine ⟨by omega, b, ?_, d⟩
        intro j hj1 hj2
        by_cases hji : j = i
        · subst hji; exact fun h => heq h.symm
        · exact c j (by omega) hj2
    · simp only [hlt, if_false]
      refine ⟨le_refl _, h1, ?_, ?_⟩
      · intro j hj1 hj2; omega
      · intro h; exact absurd h (by simp)

/-- The value returned by the scan does not depend on the iteration bound, as
soon as the bound covers the cells from `i` to `num_colours`. -/
theorem scan_colours_bound_irrelevant (datain : Int) (colour_array : List Int)
    (num_colours k k' i : Nat) (hi : i ≤ num_colours) (hk : num_colours ≤ i + k)
    (hk' : num_colours ≤ i + k') :
    scan_colours datain colour_array num_colours k i =
      scan_colours datain colour_array num_colours k' i := by
  obtain ⟨a1, a2, a3, a4⟩ := scan_colours_spec datain colour_array num_colours k i hi hk
  obtain ⟨b1, b2, b3, b4⟩ := scan_colours_spec datain colour_array num_colours k' i hi hk'
  rcases lt_trichotomy (scan_colours datain colour_array num_colours k i)
    (scan_colours datain colour_array num_colours k' i) with h | h | h
  · exact absurd (a4 (lt_of_lt_of_le h b2)) (b3 _ a1 h)
  · exact h
  · exact absurd (b4 (lt_of_lt_of_le h a2)) (a3 _ b1 h)

theorem find_colour_le (datain : Int) (colour_array : List Int) (num_colours : Nat) :
    find_colour datain colour_array num_colours ≤ num_colours :=
  (scan_colours_spec datain colour_array num_colours num_colours 0 (Nat.zero_le _)
    (by omega)).2.1

theorem find_colour_before (datain : Int) (colour_array : List Int) (num_colours : Nat)
    (j : Nat) (hj : j < find_colour datain colour_array num_colours) :
    colour_array.getD j 0 ≠ datain :=
  (scan_colours_spec datain colour_array num_colours num_colours 0 (Nat.zero_le _)
    (by omega)).2.2.1 j (Nat.zero_le _) hj

theorem find_colour_hit (datain : Int) (colour_array : List Int) (num_colours : Nat)
    (h : find_colour datain colour_array num_colours < num_colours) :
    colour_array.getD (find_colour datain colour_array num_colours) 0 = datain :=
  (scan_colours_spec datain colour_array num_colours num_colours 0 (Nat.zero_le _)
    (by omega)).2.2.2 h

theorem mem_take_iff_getD (datain : Int) (colour_array : List Int) (num_colours : Nat)
    (hlen : num_colours ≤ colour_array.length) :
    datain ∈ colour_array.take num_colours ↔
      ∃ j, j < num_colours ∧ colour_array.getD j 0 = datain := by
  rw [List.mem_take_iff_getElem]
  constructor
  · rintro ⟨j, hj, rfl⟩
    have hj1 : j < num_colours := lt_of_lt_of_le hj (min_le_left _ _)
    have hj2 : j < colour_array.length := lt_of_lt_of_le hj (min_le_right _ _)
    exact ⟨j, hj1, List.getD_eq_getElem _ _ hj2⟩
  · rintro ⟨j, hj, rfl⟩
    have hj2 : j < colour_array.length := lt_of_lt_of_le hj hlen
    exact ⟨j, lt_min hj hj2, (List.getD_eq_getElem _ _ hj2).symm⟩

/-- The scan runs to `num_colours` exactly when the value is not among the
entries in use. -/
theorem find_colour_eq_iff (datain : Int) (colour_array : List Int) (num_colours : Nat)
    (hlen : num_colours ≤ colour_array.length) :
    find_colour datain colour_array num_colours = num_colours ↔
      datain ∉ colour_array.take num_colours := by
  rw [mem_take_iff_getD datain colour_array num_colours hlen]
  constructor
  · intro h ⟨j, hj, hd⟩
    exact find_colour_before datain colour_array num_colours j (by omega) hd
  · intro h
    by_contra hne
    have hlt : find_colour datain colour_array num_colours < num_colours :=
      lt_of_le_of_ne (find_colour_le _ _ _) hne
    exact h ⟨_, hlt, find_colour_hit _ _ _ hlt⟩

/-! ## One iteration of the palette loop -/

theorem ColourTable.length_entries (t : ColourTable)
    (hlen : t.num_colours ≤ t.colour_array.length) : t.entries.length = t.num_colours := by
  simp [ColourTable.entries, hlen]

theorem body_of_mem (datain : Int) (t : ColourTable)
    (hlen : t.num_colours ≤ t.colour_array.length) (h : datain ∈ t.entries) :
    create_unique_colors_body datain t = t := by
  have hne : find_colour datain t.colour_array t.num_colours ≠ t.num_colours := by
    rw [Ne, find_colour_eq_iff datain t.colour_array t.num_colours hlen]
    exact fun hn => hn h
  simp [create_unique_colors_body, hne]

theorem body_of_not_mem (datain : Int) (t : ColourTable)
    (hlen : t.num_colours < t.colour_array.length) (h : datain ∉ t.entries) :
    (create_unique_colors_body datain t).entries = t.entries ++ [datain] ∧
      (create_unique_colors_body datain t).num_colours = t.num_colours + 1 ∧
      (create_unique_colors_body datain t).colour_array.length = t.colour_array.length := by
  have heq : find_colour datain t.colour_array t.num_colours = t.num_colours :=
    (find_colour_eq_iff datain t.colour_array t.num_colours (le_of_lt hlen)).2 h
  simp only [create_unique_colors_body, heq, if_true, ColourTable.entries, List.length_set]
  refine ⟨?_, trivial, trivial⟩
  rw [List.take_succ, List.set_take, List.getElem?_set]
  simp [hlen, List.set_eq_of_length_le]

/-! ## First-occurrence de-duplication -/

theorem mem_first_seen (l : List Int) (x : Int) : x ∈ first_seen l ↔ x ∈ l := by
  induction l with
  | nil => simp [first_seen]
  | cons a l ih =>
    simp only [first_seen, List.mem_cons, List.mem_filter, ih, decide_eq_true_eq]
    by_cases hx : x = a <;> simp [hx]

theorem nodup_first_seen (l : List Int) : (first_seen l).Nodup := by
  induction l with
  | nil => simp [first_seen]
  | cons a l ih =>
    simp only [first_seen, List.nodup_cons, List.mem_filter, decide_eq_true_eq]
    exact ⟨fun h => h.2 rfl, ih.filter _⟩

theorem first_seen_toFinset (l : List Int) : (first_seen l).toFinset = l.toFinset := by
  ext x
  simp [mem_first_seen]

/-- The length of the de-duplication is the number of distinct values. -/
theorem length_first_seen (l : List Int) : (first_seen l).length = l.toFinset.card := by
  rw [← first_seen_toFinset, List.toFinset_card_of_nodup (nodup_first_seen l)]

theorem first_seen_of_nodup (l : List Int) (h : l.Nodup) : first_seen l = l := by
  induction l with
  | nil => rfl
  | cons a l ih =>
    rw [List.nodup_cons] at h
    simp only [first_seen, ih h.2]
    congr 1
    rw [List.filter_eq_self]
    intro y hy
    simp only [decide_eq_true_eq]
    rintro rfl
    exact h.1 hy

theorem filter_seen_of_mem (acc fs : List Int) (d : Int) (h : d ∈ acc) :
    (d :: fs.filter (fun y => decide (y ≠ d))).filter (fun y => decide (y ∉ acc)) =
      fs.filter (fun y => decide (y ∉ acc)) := by
  rw [List.filter_cons_of_neg (by simpa using h), List.filter_filter]
  apply List.filter_congr
  intro y _
  by_cases hy : y ∈ acc
  · simp [hy]
  · have : y ≠ d := fun e => hy (e ▸ h)
    simp [hy, this]

theorem filter_seen_of_not_mem (acc fs : List Int) (d : Int) (h : d ∉ acc) :
    acc ++ (d :: fs.filter (fun y => decide (y ≠ d))).filter (fun y => decide (y ∉ acc)) =
      (acc ++ [d]) ++ fs.filter (fun y => decide (y ∉ acc ++ [d])) := by
  rw [List.filter_cons_of_pos (by simpa using h), List.filter_filter, List.append_assoc]
  congr 2
  apply List.filter_congr
  intro y _
  simp [not_or]

/-! ## The palette loop -/

/-- With enough pixels in the file the loop returns. -/
theorem create_unique_colors_loop_returns (cap : Nat) :
    ∀ (file : List Int) (n : Nat) (t : ColourTable), n ≤ file.length →
      ∃ r, create_unique_colors_loop cap file (n : Int) t = some r := by
  intro file
  induction file with
  | nil =>
    intro n t hn
    have hn0 : n = 0 := by simpa using hn
    subst hn0
    exact ⟨⟨t, []⟩, by simp [create_unique_colors_loop]⟩
  | cons d rest ih =>
    intro n t hn
    cases n with
    | zero => exact ⟨⟨t, d :: rest⟩, by simp [create_unique_colors_loop]⟩
    | succ m =>
      have hm : m ≤ rest.length := by simpa using hn
      have h2 : ((m + 1 : Nat) : Int) - 1 = (m : Int) := by omega
      by_cases hc : ((m + 1 : Nat) : Int) ≠ 0 ∧ t.num_colours < cap
      · rw [create_unique_colors_loop, if_pos hc, h2]
        exact ih m _ hm
      · rw [create_unique_colors_loop, if_neg hc]
        exact ⟨_, rfl⟩

/-- Whenever the loop returns, started from a table whose buffer has room for
`cap` entries, the entries in use are the old entries followed by the new
values among the first `n` pixels in first-seen order, cut at `cap`. -/
theorem create_unique_colors_loop_entries (cap : Nat) :
    ∀ (file : List Int) (n : Nat) (t : ColourTable) (r : CreateResult),
      t.num_colours ≤ cap → cap ≤ t.colour_array.length →
      create_unique_colors_loop cap file (n : Int) t = some r →
      r.table.entries =
          (t.entries ++ (first_seen (file.take n)).filter
            (fun y => decide (y ∉ t.entries))).take cap ∧
        r.table.num_colours ≤ cap ∧
        r.table.colour_array.length = t.colour_array.length := by
  intro file
  induction file with
  | nil =>
    intro n t r hnc hlen hrun
    by_cases hc : (n : Int) ≠ 0 ∧ t.num_colours < cap
    · rw [create_unique_colors_loop, if_pos hc] at hrun
      exact absurd hrun (by simp)
    · rw [create_unique_colors_loop, if_neg hc, Option.some.injEq] at hrun
      subst hrun
      refine ⟨?_, hnc, rfl⟩
      simp [first_seen, List.take_of_length_le, t.length_entries (le_trans hnc hlen), hnc]
  | cons d rest ih =>
    intro n t r hnc hlen hrun
    have hlenE : t.entries.length = t.num_colours := t.length_entries (le_trans hnc hlen)
    by_cases hc : (n : Int) ≠ 0 ∧ t.num_colours < cap
    · rw [create_unique_colors_loop, if_pos hc] at hrun
      obtain ⟨hn0, hfull⟩ := hc
      cases n with
      | zero => exact absurd rfl hn0
      | succ m =>
        have h2 : ((m + 1 : Nat) : Int) - 1 = (m : Int) := by omega
        rw [h2] at hrun
        by_cases hmem : d ∈ t.entries
        · rw [body_of_mem d t (le_trans hnc hlen) hmem] at hrun
          obtain ⟨he, hcc, hl⟩ := ih m t r hnc hlen hrun
          refine ⟨?_, hcc, hl⟩
          rw [he, List.take_succ_cons, first_seen, filter_seen_of_mem _ _ _ hmem]
        · obtain ⟨hbe, hbn, hbl⟩ :=
            body_of_not_mem d t (lt_of_lt_of_le hfull hlen) hmem
          obtain ⟨he, hcc, hl⟩ := ih m (create_unique_colors_body d t) r
            (by rw [hbn]; exact hfull) (by rw [hbl]; exact hlen) hrun
          refine ⟨?_, hcc, by rw [hl, hbl]⟩
          rw [he, hbe, List.take_succ_cons, first_seen, filter_seen_of_not_mem _ _ _ hmem]
    · rw [create_unique_colors_loop, if_neg hc, Option.some.injEq] at hrun
      subst hrun
      refine ⟨?_, hnc, rfl⟩
      by_cases hn0 : n = 0
      · subst hn0
        simp [first_seen, List.take_of_length_le, hlenE, hnc]
      · have hcap : t.num_colours = cap := by
          have hn1 : (n : Int) ≠ 0 := by omega
          have hnot : ¬ t.num_colours < cap := fun h => hc ⟨hn1, h⟩
          omega
        rw [List.take_append_eq_append_take, hlenE, hcap]
        simp [List.take_of_length_le, hlenE, hcap]

/-- The loop, started from any table whose buffer has room for `cap` entries,
returns when the file holds the `n` pixels asked for, with the entries
described by `create_unique_colors_loop_entries`. -/
theorem create_unique_colors_loop_spec (cap : Nat) (file : List Int) (n : Nat)
    (t : ColourTable) (hn : n ≤ file.length) (hnc : t.num_colours ≤ cap)
    (hlen : cap ≤ t.colour_array.length) :
    ∃ r, create_unique_colors_loop cap file (n : Int) t = some r ∧
      r.table.entries =
        (t.entries ++ (first_seen (file.take n)).filter
          (fun y => decide (y ∉ t.entries))).take cap ∧
      r.table.num_colours ≤ cap ∧
      r.table.colour_array.length = t.colour_array.length := by
  obtain ⟨r, hr⟩ := create_unique_colors_loop_returns cap file n t hn
  exact ⟨r, hr, create_unique_colors_loop_entries cap file n t r hnc hlen hr⟩

/-- Whenever `create_unique_colors_array_cap` returns, the entries in use are the
first `cap` entries of the de-duplication of the first `n` pixels, and their
count is the number of distinct values among those pixels, capped at `cap`. -/
theorem create_unique_colors_array_cap_entries (cap : Nat) (file colour_array : List Int)
    (n : Nat) (r : CreateResult) (hlen : cap ≤ colour_array.length)
    (hr : create_unique_colors_array_cap cap file colour_array (n : Int) = some r) :
    r.table.entries = (first_seen (file.take n)).take cap ∧
      r.table.num_colours = min cap (file.take n).toFinset.card ∧
      r.table.colour_array.length = colour_array.length := by
  obtain ⟨he, hc, hl⟩ := create_unique_colors_loop_entries cap file n
    ⟨colour_array, 0⟩ r (Nat.zero_le _) hlen hr
  have he2 : r.table.entries = (first_seen (file.take n)).take cap := by
    rw [he]
    simp [ColourTable.entries]
  refine ⟨he2, ?_, hl⟩
  have h3 : r.table.entries.length = r.table.num_colours :=
    r.table.length_entries (by rw [hl]; exact le_trans hc hlen)
  rw [← h3, he2, List.length_take, length_first_seen]

/-- The result of `create_unique_colors_array_cap` for a file that holds the
`n` pixels asked for. -/
theorem create_unique_colors_array_cap_spec (cap : Nat) (file colour_array : List Int)
    (n : Nat) (hn : n ≤ file.length) (hlen : cap ≤ colour_array.length) :
    ∃ r, create_unique_colors_array_cap cap file colour_array (n : Int) = some r ∧
      r.table.entries = (first_seen (file.take n)).take cap ∧
      r.table.num_colours = min cap (file.take n).toFinset.card ∧
      r.table.colour_array.length = colour_array.length := by
  obtain ⟨r, hr⟩ := create_unique_colors_loop_returns cap file n ⟨colour_array, 0⟩ hn
  exact ⟨r, hr, create_unique_colors_array_cap_entries cap file colour_array n r hlen hr⟩

/-- Once the table is full the loop returns at once, whatever is left to read. -/
theorem create_unique_colors_loop_full (cap : Nat) (file : List Int) (n : Int)
    (t : ColourTable) (hfull : ¬ t.num_colours < cap) :
    create_unique_colors_loop cap file n t = some { table := t, unread := file } := by
  cases file with
  | nil => rw [create_unique_colors_loop, if_neg (fun h => hfull h.2)]
  | cons d rest => rw [create_unique_colors_loop, if_neg (fun h => hfull h.2)]

/-- A run over a prefix `pre` that fills the table is not changed by what
follows the prefix, nor by a larger pixel count: the early exit of the loop. -/
theorem create_unique_colors_loop_early_exit (cap : Nat) :
    ∀ (pre : List Int) (t : ColourTable) (r : CreateResult) (rest : List Int) (n : Nat),
      create_unique_colors_loop cap pre (pre.length : Int) t = some r →
      r.table.num_colours = cap → pre.length ≤ n →
      create_unique_colors_loop cap (pre ++ rest) (n : Int) t =
        some { table := r.table, unread := r.unread ++ rest } := by
  intro pre
  induction pre with
  | nil =>
    intro t r rest n hrun hfull hn
    have hr : r = ⟨t, []⟩ := by
      simp [create_unique_colors_loop] at hrun
      exact hrun.symm
    subst hr
    simp only [List.nil_append]
    exact create_unique_colors_loop_full cap rest n t (by simp at hfull; omega)
  | cons d pre ih =>
    intro t r rest n hrun hfull hn
    by_cases hc : t.num_colours < cap
    · cases n with
      | zero => simp at hn
      | succ m =>
        have hm : pre.length ≤ m := by simpa using hn
        have h1 : ((m + 1 : Nat) : Int) ≠ 0 := by omega
        have h2 : ((m + 1 : Nat) : Int) - 1 = (m : Int) := by omega
        have h3 : (((d :: pre).length : Nat) : Int) ≠ 0 := by simp; omega
        have h4 : (((d :: pre).length : Nat) : Int) - 1 = (pre.length : Int) := by simp
        rw [create_unique_colors_loop, if_pos ⟨h3, hc⟩, h4] at hrun
        rw [List.cons_append, create_unique_colors_loop, if_pos ⟨h1, hc⟩, h2]
        exact ih _ r rest m hrun hfull hm
    · rw [create_unique_colors_loop_full cap _ _ t hc, Option.some.injEq] at hrun
      subst hrun
      exact create_unique_colors_loop_full cap _ _ t hc

/-! ## The index mapping loop -/

/-- With enough pixels in the file the mapping loop returns one byte per pixel,
in source order. -/
theorem fill_raw_image_loop_spec (colour_array : List Int) (num_colours : Nat) :
    ∀ (file : List Int) (n : Nat), n ≤ file.length →
      fill_raw_image_loop colour_array num_colours file (n : Int) =
        some ((file.take n).map (fun d => fill_index d colour_array num_colours % 256)) := by
  intro file
  induction file with
  | nil =>
    intro n hn
    have hn0 : n = 0 := by simpa using hn
    subst hn0
    simp [fill_raw_image_loop]
  | cons d rest ih =>
    intro n hn
    cases n with
    | zero => simp [fill_raw_image_loop]
    | succ m =>
      have hm : m ≤ rest.length := by simpa using hn
      have h1 : ((m + 1 : Nat) : Int) ≠ 0 := by omega
      have h2 : ((m + 1 : Nat) : Int) - 1 = (m : Int) := by omega
      simp only [fill_raw_image_loop, h1, ne_eq, not_false_eq_true, if_true, h2, ih m hm,
        List.take_succ_cons, List.map_cons]

/-- A file that runs out before `n` pixels have been read makes the mapping loop
exit. -/
theorem fill_raw_image_loop_truncated (colour_array : List Int) (num_colours : Nat) :
    ∀ (file : List Int) (n : Nat), file.length < n →
      fill_raw_image_loop colour_array num_colours file (n : Int) = none := by
  intro file
  induction file with
  | nil =>
    intro n hn
    have h1 : (n : Int) ≠ 0 := by
      have : 0 < n := by simpa using hn
      omega
    simp [fill_raw_image_loop, h1]
  | cons d rest ih =>
    intro n hn
    cases n with
    | zero => simp at hn
    | succ m =>
      have hm : rest.length < m := by simpa using hn
      have h1 : ((m + 1 : Nat) : Int) ≠ 0 := by omega
      have h2 : ((m + 1 : Nat) : Int) - 1 = (m : Int) := by omega
      simp only [fill_raw_image_loop, h1, ne_eq, not_false_eq_true, if_true, h2, ih m hm]

theorem fill_index_of_mem (datain : Int) (colour_array : List Int) (num_colours : Nat)
    (hlen : num_colours ≤ colour_array.length)
    (h : datain ∈ colour_array.take num_colours) :
    fill_index datain colour_array num_colours = find_colour datain colour_array num_colours ∧
      fill_index datain colour_array num_colours < num_colours ∧
      colour_array[fill_index datain colour_array num_colours]? = some datain := by
  have hne : find_colour datain colour_array num_colours ≠ num_colours := by
    rw [Ne, find_colour_eq_iff datain colour_array num_colours hlen]
    exact fun hn => hn h
  have hlt : find_colour datain colour_array num_colours < num_colours :=
    lt_of_le_of_ne (find_colour_le _ _ _) hne
  have hfi : fill_index datain colour_array num_colours =
      find_colour datain colour_array num_colours := by
    simp [fill_index, hne]
  refine ⟨hfi, by rw [hfi]; exact hlt, ?_⟩
  rw [hfi]
  have hhit := find_colour_hit datain colour_array num_colours hlt
  have hb : find_colour datain colour_array num_colours < colour_array.length :=
    lt_of_lt_of_le hlt hlen
  rw [List.getD_eq_getElem _ _ hb] at hhit
  rw [List.getElem?_eq_getElem hb, hhit]

theorem fill_index_of_not_mem (datain : Int) (colour_array : List Int) (num_colours : Nat)
    (hlen : num_colours ≤ colour_array.length)
    (h : datain ∉ colour_array.take num_colours) :
    fill_index datain colour_array num_colours = 0 := by
  have heq := (find_colour_eq_iff datain colour_array num_colours hlen).2 h
  simp [fill_index, heq]

/-! ## Channel widening -/

/-- Masking with a run of `w` one-bits that starts at bit `lo` keeps exactly the
field of `w` bits at `lo`. -/
theorem land_field (x lo w : Nat) :
    x &&& ((2 ^ w - 1) <<< lo) = ((x >>> lo) % 2 ^ w) <<< lo := by
  apply Nat.eq_of_testBit_eq
  intro i
  simp only [Nat.testBit_and, Nat.testBit_shiftLeft, Nat.testBit_shiftRight,
    Nat.testBit_mod_two_pow, Nat.testBit_two_pow_sub_one]
  by_cases h : lo ≤ i
  · have : lo + (i - lo) = i := by omega
    simp [h, this, Bool.and_comm]
  · simp [h]

theorem land_f800 (x : Nat) : x &&& 0xf800 = ((x / 2048) % 32) * 2048 := by
  have := land_field x 11 5
  simpa [Nat.shiftLeft_eq, Nat.shiftRight_eq_div_pow] using this

theorem land_07e0 (x : Nat) : x &&& 0x07e0 = ((x / 32) % 64) * 32 := by
  have := land_field x 5 6
  simpa [Nat.shiftLeft_eq, Nat.shiftRight_eq_div_pow] using this

theorem land_001f (x : Nat) : x &&& 0x001f = x % 32 := by
  have := land_field x 0 5
  simpa [Nat.shiftLeft_eq, Nat.shiftRight_eq_div_pow] using this

/-- Sign extension puts ones above bit 15 of a negative `int16_t` and leaves the
low 16 bits as they are. -/
theorem promoted_bits_int16 (raw : Nat) (hraw : raw < 65536) :
    promoted_bits (int16_of_raw raw) = if raw < 32768 then raw else raw + 4294901760 := by
  unfold promoted_bits int16_of_raw
  have hmod : raw % 65536 = raw := Nat.mod_eq_of_lt hraw
  rw [hmod]
  by_cases h : raw < 32768
  · simp only [h, if_true]
    omega
  · simp only [h, if_false]
    omega

theorem palette_entry_int16 (raw : Nat) (hraw : raw < 65536) :
    palette_entry (int16_of_raw raw) =
      (8 * (raw / 2048 % 32), 4 * (raw / 32 % 64), 8 * (raw % 32), 255) := by
  unfold palette_entry
  simp only [promoted_bits_int16 raw hraw, land_f800, land_07e0, land_001f,
    Nat.shiftLeft_eq, Nat.shiftRight_eq_div_pow]
  by_cases h : raw < 32768
  · simp only [h, if_true, Prod.mk.injEq, and_true]
    refine ⟨?_, ?_, ?_⟩ <;> omega
  · simp only [h, if_false, Prod.mk.injEq, and_true]
    refine ⟨?_, ?_, ?_⟩ <;> omega

/-! ## The loop invariant -/

theorem body_prefix (datain : Int) (t : ColourTable)
    (hlen : t.num_colours < t.colour_array.length) :
    t.entries <+: (create_unique_colors_body datain t).entries ∧
      (create_unique_colors_body datain t).num_colours ≤ t.num_colours + 1 ∧
      (create_unique_colors_body datain t).colour_array.length = t.colour_array.length ∧
      (t.entries.Nodup → (create_unique_colors_body datain t).entries.Nodup) ∧
      (∀ j, j ≠ t.num_colours →
        (create_unique_colors_body datain t).colour_array[j]? = t.colour_array[j]?) := by
  by_cases hmem : datain ∈ t.entries
  · rw [body_of_mem datain t (le_of_lt hlen) hmem]
    exact ⟨List.prefix_refl _, Nat.le_succ _, rfl, fun h => h, fun _ _ => rfl⟩
  · obtain ⟨he, hn, hl⟩ := body_of_not_mem datain t hlen hmem
    refine ⟨by rw [he]; exact List.prefix_append _ _, by rw [hn], hl, ?_, ?_⟩
    · intro hnd
      rw [he]
      refine List.Nodup.append hnd (List.nodup_singleton _) ?_
      intro a ha hb
      rw [List.mem_singleton] at hb
      exact hmem (hb ▸ ha)
    · intro j hj
      have heq : find_colour datain t.colour_array t.num_colours = t.num_colours :=
        (find_colour_eq_iff datain t.colour_array t.num_colours (le_of_lt hlen)).2 hmem
      simp only [create_unique_colors_body, heq, if_true]
      rw [List.getElem?_set, if_neg (fun h => hj h.symm)]

/-- From any table that satisfies the invariant, whatever the file and the
counter, a run of the loop that returns leaves a table that satisfies it and
whose entries extend the entries it started from. -/
theorem create_unique_colors_loop_invariant (cap : Nat) :
    ∀ (file : List Int) (n : Int) (t : ColourTable) (r : CreateResult),
      t.num_colours ≤ cap → cap ≤ t.colour_array.length → t.entries.Nodup →
      create_unique_colors_loop cap file n t = some r →
      r.table.entries.Nodup ∧ r.table.num_colours ≤ cap ∧
        r.table.colour_array.length = t.colour_array.length ∧
        t.entries <+: r.table.entries := by
  intro file
  induction file with
  | nil =>
    intro n t r hnc hlen hnd hrun
    by_cases hc : n ≠ 0 ∧ t.num_colours < cap
    · rw [create_unique_colors_loop, if_pos hc] at hrun
      exact absurd hrun (by simp)
    · rw [create_unique_colors_loop, if_neg hc, Option.some.injEq] at hrun
      subst hrun
      exact ⟨hnd, hnc, rfl, List.prefix_refl _⟩
  | cons d rest ih =>
    intro n t r hnc hlen hnd hrun
    by_cases hc : n ≠ 0 ∧ t.num_colours < cap
    · rw [create_unique_colors_loop, if_pos hc] at hrun
      obtain ⟨hp, hn1, hl, hnd2, _⟩ := body_prefix d t (lt_of_lt_of_le hc.2 hlen)
      obtain ⟨a, b, c, e⟩ := ih (n - 1) (create_unique_colors_body d t) r
        (le_trans hn1 hc.2) (by rw [hl]; exact hlen) (hnd2 hnd) hrun
      exact ⟨a, b, by rw [c, hl], hp.trans e⟩
    · rw [create_unique_colors_loop, if_neg hc, Option.some.injEq] at hrun
      subst hrun
      exact ⟨hnd, hnc, rfl, List.prefix_refl _⟩

/-! ## The two passes together -/

/-- When the first `n` pixels hold at most 256 distinct raw values, both passes
return, the palette holds every one of those values, and the index stored for
each pixel is the position of an entry equal to the pixel. -/
theorem two_pass_within_capacity (stream colour_array : List Int) (n : Nat)
    (hbuf : MAX_PALETTE_SIZE ≤ colour_array.length) (hn : n ≤ stream.length)
    (hdistinct : (stream.take n).toFinset.card ≤ 256) :
    ∃ r raster, create_unique_colors_array stream colour_array (n : Int) = some r ∧
      fill_raw_image_array stream r.table.colour_array (n : Int) r.table.num_colours =
        some raster ∧
      raster.length = n ∧
      r.table.num_colours = (stream.take n).toFinset.card ∧
      ∀ p, p < n → ∃ i, raster[p]? = some i ∧ i < r.table.num_colours ∧
        r.table.colour_array[i]? = stream[p]? ∧
        find_colour (stream.getD p 0) r.table.colour_array r.table.num_colours
          ≠ r.table.num_colours := by
  obtain ⟨r, hr, he, hc, hl⟩ :=
    create_unique_colors_array_cap_spec MAX_PALETTE_SIZE stream colour_array n hn hbuf
  have hnc : r.table.num_colours ≤ r.table.colour_array.length := by
    rw [hc, hl]; exact le_trans (min_le_left _ _) hbuf
  have hnc256 : r.table.num_colours ≤ 256 := by
    rw [hc]; exact min_le_left _ _
  have hall : r.table.entries = first_seen (stream.take n) := by
    rw [he]
    apply List.take_of_length_le
    rw [length_first_seen]
    exact hdistinct
  refine ⟨r, _, hr, fill_raw_image_loop_spec _ _ stream n hn, by simp [hn],
    by rw [hc]; exact min_eq_right hdistinct, ?_⟩
  intro p hp
  have hps : p < stream.length := lt_of_lt_of_le hp hn
  have hmem : stream[p] ∈ r.table.colour_array.take r.table.num_colours := by
    have h1 : stream[p] ∈ stream.take n := by
      rw [List.mem_take_iff_getElem]
      exact ⟨p, lt_min hp hps, rfl⟩
    have h2 := (mem_first_seen (stream.take n) stream[p]).2 h1
    rw [← hall] at h2
    exact h2
  obtain ⟨hfi, hlt, hget⟩ := fill_index_of_mem _ _ _ hnc hmem
  refine ⟨fill_index stream[p] r.table.colour_array r.table.num_colours, ?_, hlt, ?_, ?_⟩
  · rw [List.getElem?_map, List.getElem?_take_of_lt hp, List.getElem?_eq_getElem hps]
    simp only [Option.map_some']
    congr 1
    exact Nat.mod_eq_of_lt (lt_of_lt_of_le hlt hnc256)
  · rw [hget, List.getElem?_eq_getElem hps]
  · rw [List.getD_eq_getElem _ _ hps, ← hfi]
    exact ne_of_lt hlt

theorem fill_index_lt (datain : Int) (colour_array : List Int) (num_colours : Nat)
    (hpos : 0 < num_colours) : fill_index datain colour_array num_colours < num_colours := by
  unfold fill_index
  by_cases h : find_colour datain colour_array num_colours = num_colours
  · simp only [h, if_true]
    exact hpos
  · simp only [h, if_false]
    exact lt_of_le_of_ne (find_colour_le _ _ _) h

/-- The stream `0, 1, ..., k - 1` has no repeated value. -/
theorem nodup_ramp (k : Nat) : ((List.range k).map Int.ofNat).Nodup :=
  List.Nodup.map (fun _ _ h => Int.ofNat.inj h) (List.nodup_range k)

theorem card_ramp (k : Nat) : ((List.range k).map Int.ofNat).toFinset.card = k := by
  rw [List.toFinset_card_of_nodup (nodup_ramp k), List.length_map, List.length_range]

/-- The palette pass over `0, 1, ..., 255` followed by anything, with any pixel
count of at least 256, stops after 256 pixels with a full table that does not
depend on what follows. -/
theorem create_unique_colors_array_ramp (colour_array rest : List Int) (n : Nat)
    (hbuf : MAX_PALETTE_SIZE ≤ colour_array.length) (hn : 256 ≤ n) :
    ∃ r, create_unique_colors_array ((List.range 256).map Int.ofNat) colour_array
        ((256 : Nat) : Int) = some r ∧
      r.table.num_colours = 256 ∧
      create_unique_colors_array ((List.range 256).map Int.ofNat ++ rest) colour_array
        (n : Int) = some { table := r.table, unread := r.unread ++ rest } := by
  obtain ⟨r, hr, _, hc, _⟩ := create_unique_colors_array_cap_spec MAX_PALETTE_SIZE
    ((List.range 256).map Int.ofNat) colour_array 256 (by simp) hbuf
  have hlen : ((List.range 256).map Int.ofNat).length = 256 := by simp
  have hfull : r.table.num_colours = 256 := by
    rw [hc, List.take_of_length_le (le_of_eq hlen), card_ramp]
    rfl
  refine ⟨r, hr, hfull, ?_⟩
  have hr2 : create_unique_colors_loop MAX_PALETTE_SIZE ((List.range 256).map Int.ofNat)
      ((((List.range 256).map Int.ofNat).length : Nat) : Int) ⟨colour_array, 0⟩ = some r := by
    rw [hlen]; exact hr
  exact create_unique_colors_loop_early_exit MAX_PALETTE_SIZE _ _ r rest n hr2 hfull
    (by rw [hlen]; exact hn)

/-! ## The early exit of the palette loop -/

/-- While the table is not full before any of the pixels of `pre` is read, a
run over `pre` with the pixel count `pre.length` reads every pixel of `pre`. -/
theorem create_unique_colors_loop_reads_all (cap : Nat) :
    ∀ (pre : List Int) (t : ColourTable) (r : CreateResult),
      t.num_colours ≤ cap → cap ≤ t.colour_array.length →
      create_unique_colors_loop cap pre (pre.length : Int) t = some r →
      (∀ j, j < pre.length →
        (t.entries ++ (first_seen (pre.take j)).filter
          (fun y => decide (y ∉ t.entries))).length < cap) →
      r.unread = [] := by
  intro pre
  induction pre with
  | nil =>
    intro t r _ _ hrun _
    simp [create_unique_colors_loop] at hrun
    rw [← hrun]
  | cons d rest ih =>
    intro t r hnc hlen hrun hcond
    have hlenE : t.entries.length = t.num_colours := t.length_entries (le_trans hnc hlen)
    have h0 := hcond 0 (by simp)
    simp only [List.take_zero, first_seen, List.filter_nil, List.append_nil, hlenE] at h0
    have h3 : (((d :: rest).length : Nat) : Int) ≠ 0 := by simp; omega
    have h4 : (((d :: rest).length : Nat) : Int) - 1 = (rest.length : Int) := by simp
    rw [create_unique_colors_loop, if_pos ⟨h3, h0⟩, h4] at hrun
    obtain ⟨_, hn1, hl, _, _⟩ := body_prefix d t (lt_of_lt_of_le h0 hlen)
    refine ih (create_unique_colors_body d t) r (le_trans hn1 h0) (by rw [hl]; exact hlen)
      hrun ?_
    intro j hj
    have hj1 := hcond (j + 1) (by simpa using hj)
    rw [List.take_succ_cons, first_seen] at hj1
    by_cases hmem : d ∈ t.entries
    · rw [body_of_mem d t (le_trans hnc hlen) hmem]
      rw [filter_seen_of_mem _ _ _ hmem] at hj1
      exact hj1
    · obtain ⟨hbe, _, _⟩ := body_of_not_mem d t (lt_of_lt_of_le h0 hlen) hmem
      rw [filter_seen_of_not_mem _ _ _ hmem] at hj1
      rw [hbe]
      exact hj1

/-- When `k` is the least number of leading pixels that hold 256 distinct
values, every run with a pixel count of at least `k` reads exactly those `k`
pixels and leaves the table that the run over them alone leaves. -/
theorem create_unique_colors_array_stops_at (stream buffer : List Int) (k n : Nat)
    (hbuf : MAX_PALETTE_SIZE ≤ buffer.length)
    (hk : (stream.take k).toFinset.card = 256)
    (hmin : ∀ j, j < k → (stream.take j).toFinset.card < 256) (hkn : k ≤ n) :
    k ≤ stream.length ∧
    ∃ r, create_unique_colors_array stream buffer (n : Int) = some r ∧
      r.unread = stream.drop k ∧
      create_unique_colors_array (stream.take k) buffer (k : Int) =
        some { table := r.table, unread := [] } ∧
      r.table.entries = first_seen (stream.take k) ∧
      r.table.num_colours = 256 := by
  have hklen : k ≤ stream.length := by
    by_contra hlt
    have hlt2 : stream.length < k := not_le.mp hlt
    have h1 := hmin stream.length hlt2
    rw [List.take_of_length_le (le_of_lt hlt2)] at hk
    rw [List.take_of_length_le (le_refl _), hk] at h1
    exact absurd h1 (lt_irrefl _)
  have hprelen : (stream.take k).length = k := by simp [hklen]
  obtain ⟨r0, hr0⟩ := create_unique_colors_loop_returns MAX_PALETTE_SIZE (stream.take k) k
    ⟨buffer, 0⟩ (le_of_eq hprelen.symm)
  obtain ⟨he, hc, hl⟩ := create_unique_colors_array_cap_entries MAX_PALETTE_SIZE
    (stream.take k) buffer k r0 hbuf hr0
  have htt : (stream.take k).take k = stream.take k := by
    rw [List.take_take, min_self]
  rw [htt] at he hc
  have hfull : r0.table.num_colours = 256 := by
    rw [hc, hk]; rfl
  have hentries : r0.table.entries = first_seen (stream.take k) := by
    rw [he]
    apply List.take_of_length_le
    rw [length_first_seen, hk]
    exact le_refl _
  have hr0' : create_unique_colors_loop MAX_PALETTE_SIZE (stream.take k)
      (((stream.take k).length : Nat) : Int) ⟨buffer, 0⟩ = some r0 := by
    rw [hprelen]; exact hr0
  have hunread : r0.unread = [] := by
    refine create_unique_colors_loop_reads_all MAX_PALETTE_SIZE (stream.take k) ⟨buffer, 0⟩ r0
      (Nat.zero_le _) hbuf hr0' ?_
    intro j hj
    rw [hprelen] at hj
    have hjj : (stream.take k).take j = stream.take j := by
      rw [List.take_take, min_eq_left (le_of_lt hj)]
    have hlenj : (List.filter (fun y => decide (y ∉ ([] : List Int)))
        (first_seen (stream.take j))).length = (stream.take j).toFinset.card := by
      rw [← length_first_seen]
      congr 1
      apply List.filter_eq_self.2
      intro a _
      simp
    simp only [ColourTable.entries, List.take_zero, List.nil_append, hjj, hlenj]
    exact hmin j hj
  have hexit := create_unique_colors_loop_early_exit MAX_PALETTE_SIZE (stream.take k)
    ⟨buffer, 0⟩ r0 (stream.drop k) n hr0' hfull (by rw [hprelen]; exact hkn)
  rw [List.take_append_drop, hunread, List.nil_append] at hexit
  refine ⟨hklen, ⟨r0.table, stream.drop k⟩, hexit, rfl, ?_, hentries, hfull⟩
  have : r0 = ⟨r0.table, []⟩ := by
    cases r0 with
    | mk tb ur =>
      simp only at hunread
      rw [hunread]
  rw [← this]
  exact hr0

/-! ## Injectivity of the channel widening -/

theorem palette_entry_injective (a b : Nat) (ha : a < 65536) (hb : b < 65536)
    (h : palette_entry (int16_of_raw a) = palette_entry (int16_of_raw b)) : a = b := by
  rw [palette_entry_int16 a ha, palette_entry_int16 b hb] at h
  simp only [Prod.mk.injEq, and_true] at h
  omega

/-- Every `int16_t` value is the value of its own 16-bit word. -/
theorem int16_of_raw_of_int16 (x : Int) (hx : -32768 ≤ x ∧ x < 32768) :
    raw_of_int16 x < 65536 ∧ int16_of_raw (raw_of_int16 x) = x := by
  unfold int16_of_raw raw_of_int16
  constructor
  · omega
  · have hmod : (x % 65536).toNat % 65536 = (x % 65536).toNat := by omega
    rw [hmod]
    by_cases h : (x % 65536).toNat < 32768
    · simp only [h, if_true]
      omega
    · simp only [h, if_false]
      omega

theorem palette_entry_injOn (x y : Int) (hx : -32768 ≤ x ∧ x < 32768)
    (hy : -32768 ≤ y ∧ y < 32768) (h : palette_entry x = palette_entry y) : x = y := by
  obtain ⟨hx1, hx2⟩ := int16_of_raw_of_int16 x hx
  obtain ⟨hy1, hy2⟩ := int16_of_raw_of_int16 y hy
  rw [← hx2, ← hy2] at h
  rw [← hx2, ← hy2, palette_entry_injective _ _ hx1 hy1 h]

/-- The entries passed on by `load_png_palettes` are the widened entries in
use, in order. -/
theorem load_png_palettes_eq_map (color_array : List Int) (num_colors : Nat)
    (hlen : num_colors ≤ color_array.length) :
    load_png_palettes color_array num_colors =
      (color_array.take num_colors).map palette_entry := by
  apply List.ext_getElem?
  intro i
  unfold load_png_palettes
  rw [List.getElem?_map, List.getElem?_map]
  by_cases hi : i < num_colors
  · have hib : i < color_array.length := lt_of_lt_of_le hi hlen
    rw [List.getElem?_range hi, List.getElem?_take_of_lt hi, List.getElem?_eq_getElem hib]
    simp only [Option.map_some', List.getD_eq_getElem _ _ hib]
  · have hge : num_colors ≤ i := not_lt.mp hi
    rw [List.getElem?_eq_none (by simpa using hge),
      List.getElem?_eq_none (by simp; omega)]
    rfl

/-- The palette loaded from any table returned by `create_unique_colors_array`
over a stream of `int16_t` values has no repeated entry. -/
theorem load_png_palettes_nodup (stream buffer : List Int) (n : Nat) (r : CreateResult)
    (hbuf : MAX_PALETTE_SIZE ≤ buffer.length)
    (hrange : ∀ x ∈ stream, -32768 ≤ x ∧ x < 32768)
    (hrun : create_unique_colors_array stream buffer (n : Int) = some r) :
    (load_png_palettes r.table.colour_array r.table.num_colours).Nodup ∧
      (load_png_palettes r.table.colour_array r.table.num_colours).length =
        r.table.num_colours := by
  obtain ⟨he, hc, hl⟩ := create_unique_colors_array_cap_entries MAX_PALETTE_SIZE stream
    buffer n r hbuf hrun
  have hnc : r.table.num_colours ≤ r.table.colour_array.length := by
    rw [hc, hl]; exact le_trans (min_le_left _ _) hbuf
  rw [load_png_palettes_eq_map _ _ hnc]
  have hent : r.table.colour_array.take r.table.num_colours = r.table.entries := rfl
  constructor
  · rw [hent]
    have hnd : r.table.entries.Nodup := by
      rw [he]
      exact List.Nodup.sublist (List.take_sublist _ _) (nodup_first_seen _)
    refine List.Nodup.map_on ?_ hnd
    intro x hx y hy hxy
    have hmem : ∀ z, z ∈ r.table.entries → z ∈ stream := by
      intro z hz
      rw [he] at hz
      have h1 := (mem_first_seen _ z).1 (List.mem_of_mem_take hz)
      exact List.mem_of_mem_take h1
    exact palette_entry_injOn x y (hrange x (hmem x hx)) (hrange y (hmem y hy)) hxy
  · simp [hnc]

/-! ## Machine integers -/

theorem lor_mod_two_pow (a b k : Nat) : (a ||| b) % 2 ^ k = a % 2 ^ k ||| b % 2 ^ k := by
  apply Nat.eq_of_testBit_eq
  intro i
  simp only [Nat.testBit_mod_two_pow, Nat.testBit_or]
  by_cases h : i < k <;> simp [h]

/-- A bitwise OR that fills the cleared low bits of a multiple of `2 ^ k` is an
addition. -/
theorem lor_of_lt (k a b : Nat) (hb : b < 2 ^ k) : 2 ^ k * a ||| b = 2 ^ k * a + b :=
  (Nat.mul_add_lt_is_or hb a).symm

theorem land_00ff (x : Nat) : x &&& 0xff = x % 256 := by
  have := land_field x 0 8
  simpa [Nat.shiftLeft_eq, Nat.shiftRight_eq_div_pow] using this

theorem land_07c0 (x : Nat) : x &&& 0x07c0 = ((x / 64) % 32) * 64 := by
  have := land_field x 6 5
  simpa [Nat.shiftLeft_eq, Nat.shiftRight_eq_div_pow] using this

theorem land_003e (x : Nat) : x &&& 0x3e = ((x / 2) % 32) * 2 := by
  have := land_field x 1 5
  simpa [Nat.shiftLeft_eq, Nat.shiftRight_eq_div_pow] using this

theorem int16_of_raw_small (n : Nat) (h : n < 32768) : int16_of_raw n = (n : Int) := by
  unfold int16_of_raw
  have hmod : n % 65536 = n := Nat.mod_eq_of_lt (by omega)
  rw [hmod, if_pos h]

theorem int16_of_raw_congr (a b : Nat) (h : a % 65536 = b % 65536) :
    int16_of_raw a = int16_of_raw b := by
  unfold int16_of_raw
  rw [h]

theorem promoted_bits_natCast (n : Nat) (h : n < 4294967296) :
    promoted_bits (n : Int) = n := by
  unfold promoted_bits
  omega

theorem promoted_bits_int16_mod (n : Nat) :
    promoted_bits (int16_of_raw n) % 65536 = n % 65536 := by
  unfold promoted_bits int16_of_raw
  by_cases h : n % 65536 < 32768
  · simp only [h, if_true]
    omega
  · simp only [h, if_false]
    omega

/-- The three fields of a word packed 5/5/5 are read back by division and
remainder. -/
theorem rgb555_fields (a b c : Nat) (ha : a < 32) (hb : b < 32) (hc : c < 32) :
    (1024 * a + 32 * b + c) / 1024 % 32 = a ∧ (1024 * a + 32 * b + c) / 32 % 32 = b ∧
      (1024 * a + 32 * b + c) % 32 = c := by
  refine ⟨?_, ?_, ?_⟩ <;> omega

/-- The three fields of a word packed 5/6/5 are read back by division and
remainder. -/
theorem rgb565_fields (a b c : Nat) (ha : a < 32) (hb : b < 64) (hc : c < 32) :
    (2048 * a + 32 * b + c) / 2048 % 32 = a ∧ (2048 * a + 32 * b + c) / 32 % 64 = b ∧
      (2048 * a + 32 * b + c) % 32 = c := by
  refine ⟨?_, ?_, ?_⟩ <;> omega

theorem raw_of_int16_natCast (n : Nat) (h : n < 65536) : raw_of_int16 (n : Int) = n := by
  unfold raw_of_int16
  omega

theorem raw_of_int16_of_raw (n : Nat) : raw_of_int16 (int16_of_raw n) = n % 65536 := by
  unfold raw_of_int16 int16_of_raw
  by_cases h : n % 65536 < 32768
  · simp only [h, if_true]
    omega
  · simp only [h, if_false]
    omega

/-! ## Properties of the palette and index passes -/

/-- C1: for every pixel stream and every `num_pixels` not exceeding its length,
`create_unique_colors_array` returns, and the entries it leaves in
`colour_array[0 .. num_colours)` are exactly the first 256 entries of the
first-occurrence de-duplication of the first `num_pixels` raw values; in
particular a stream of at most 256 pairwise-distinct values scanned in full
gives the stream itself, with `num_colours` equal to the stream length. -/
theorem create_unique_colors_array_first_seen (stream colour_array : List Int) (n : Nat)
    (hbuf : MAX_PALETTE_SIZE ≤ colour_array.length) (hn : n ≤ stream.length) :
    ∃ r, create_unique_colors_array stream colour_array (n : Int) = some r ∧
      r.table.entries = (first_seen (stream.take n)).take 256 ∧
      r.table.num_colours = ((first_seen (stream.take n)).take 256).length ∧
      (stream.Nodup → stream.length ≤ 256 → n = stream.length →
        r.table.entries = stream ∧ r.table.num_colours = stream.length) := by
  obtain ⟨r, hr, he, hc, hl⟩ :=
    create_unique_colors_array_cap_spec MAX_PALETTE_SIZE stream colour_array n hn hbuf
  have hnum : r.table.num_colours = ((first_seen (stream.take n)).take 256).length := by
    rw [hc, List.length_take, length_first_seen]
    rfl
  refine ⟨r, hr, he, hnum, ?_⟩
  intro hnd hlen256 hnlen
  have htake : stream.take n = stream := by
    rw [hnlen]; exact List.take_of_length_le (le_refl _)
  have hfs : (first_seen (stream.take n)).take 256 = stream := by
    rw [htake, first_seen_of_nodup stream hnd]
    exact List.take_of_length_le hlen256
  have he2 : r.table.entries = stream := by
    rw [he]; exact hfs
  exact ⟨he2, by rw [hnum, hfs]⟩

/-- Witness of C1 on the stream `[5, 7, 5]` with a zeroed 256-entry buffer. -/
theorem create_unique_colors_array_first_seen_witness :
    ∃ r, create_unique_colors_array [5, 7, 5] (List.replicate 256 0) ((3 : Nat) : Int) = some r ∧
      r.table.entries = (first_seen (List.take 3 [5, 7, 5])).take 256 ∧
      r.table.num_colours = ((first_seen (List.take 3 [5, 7, 5])).take 256).length ∧
      (List.Nodup [(5 : Int), 7, 5] → List.length [(5 : Int), 7, 5] ≤ 256 →
        3 = List.length [(5 : Int), 7, 5] →
        r.table.entries = [5, 7, 5] ∧ r.table.num_colours = List.length [(5 : Int), 7, 5]) :=
  create_unique_colors_array_first_seen [5, 7, 5] (List.replicate 256 0) 3
    (by rw [List.length_replicate]; exact Nat.le_refl 256) (by simp)

/-- C2: when the first `num_pixels` pixels hold at most 256 distinct raw values,
`create_unique_colors_array` followed by `fill_raw_image_array` gives at every
pixel position an index below the palette length whose palette entry is that
pixel's raw value; the fallback to slot 0 is never taken without a match. -/
theorem fill_after_create_matches (stream colour_array : List Int) (n : Nat)
    (hbuf : MAX_PALETTE_SIZE ≤ colour_array.length) (hn : n ≤ stream.length)
    (hdistinct : (stream.take n).toFinset.card ≤ 256) :
    ∃ r raster, create_unique_colors_array stream colour_array (n : Int) = some r ∧
      fill_raw_image_array stream r.table.colour_array (n : Int) r.table.num_colours =
        some raster ∧
      raster.length = n ∧
      ∀ p, p < n → ∃ i, raster[p]? = some i ∧ i < r.table.num_colours ∧
        r.table.colour_array[i]? = stream[p]? ∧
        find_colour (stream.getD p 0) r.table.colour_array r.table.num_colours
          ≠ r.table.num_colours := by
  obtain ⟨r, raster, h1, h2, h3, _, h5⟩ :=
    two_pass_within_capacity stream colour_array n hbuf hn hdistinct
  exact ⟨r, raster, h1, h2, h3, h5⟩

/-- Witness of C2 on the stream `[5, 7, 5]` with a zeroed 256-entry buffer. -/
theorem fill_after_create_matches_witness :
    ∃ r raster, create_unique_colors_array [5, 7, 5] (List.replicate 256 0) ((3 : Nat) : Int)
        = some r ∧
      fill_raw_image_array [5, 7, 5] r.table.colour_array ((3 : Nat) : Int) r.table.num_colours =
        some raster ∧
      raster.length = 3 ∧
      ∀ p, p < 3 → ∃ i, raster[p]? = some i ∧ i < r.table.num_colours ∧
        r.table.colour_array[i]? = [(5 : Int), 7, 5][p]? ∧
        find_colour (List.getD [(5 : Int), 7, 5] p 0) r.table.colour_array r.table.num_colours
          ≠ r.table.num_colours :=
  fill_after_create_matches [5, 7, 5] (List.replicate 256 0) 3
    (by rw [List.length_replicate]; exact Nat.le_refl 256) (by simp) (by decide)

/-- C3: for every colour array with `num_colours` entries in use (duplicates
allowed, at most 256 entries as in a palette) and every pixel read,
`fill_raw_image_array` stores the least position `i < num_colours` whose entry
equals the pixel, and stores 0 when no entry matches; and with the capacity as
a parameter, a stream of distinct values `[A, B, C]` at capacity 2 gives the
palette `[A, B]` and the index raster `[0, 1, 0]`. -/
theorem fill_raw_image_array_least_match (file colour_array : List Int) (num_colours n : Nat)
    (hn : n ≤ file.length) (hnc : num_colours ≤ colour_array.length)
    (h256 : num_colours ≤ 256) :
    (∃ raster, fill_raw_image_array file colour_array (n : Int) num_colours = some raster ∧
      raster.length = n ∧
      ∀ p datain, p < n → file[p]? = some datain →
        (∀ i, i < num_colours → colour_array[i]? = some datain →
          (∀ j, j < i → colour_array[j]? ≠ some datain) → raster[p]? = some i) ∧
        ((∀ i, i < num_colours → colour_array[i]? ≠ some datain) → raster[p]? = some 0)) ∧
    (∀ (A B C : Int) (buffer : List Int), A ≠ B → A ≠ C → B ≠ C → 2 ≤ buffer.length →
      ∃ r, create_unique_colors_array_cap 2 [A, B, C] buffer ((3 : Nat) : Int) = some r ∧
        r.table.entries = [A, B] ∧
        fill_raw_image_array [A, B, C] r.table.colour_array ((3 : Nat) : Int)
          r.table.num_colours = some [0, 1, 0]) := by
  constructor
  · refine ⟨_, fill_raw_image_loop_spec _ _ file n hn, by simp [hn], ?_⟩
    intro p datain hp hfile
    have hps : p < file.length := lt_of_lt_of_le hp hn
    have hd : file[p] = datain := by
      rw [List.getElem?_eq_getElem hps] at hfile
      exact Option.some.inj hfile
    have hrast : (List.map (fun d => fill_index d colour_array num_colours % 256)
        (List.take n file))[p]? = some (fill_index datain colour_array num_colours % 256) := by
      rw [List.getElem?_map, List.getElem?_take_of_lt hp, List.getElem?_eq_getElem hps, hd]
      rfl
    rw [hrast]
    constructor
    · intro i hi hget hleast
      have hib : i < colour_array.length := lt_of_lt_of_le hi hnc
      have hmem : datain ∈ colour_array.take num_colours := by
        rw [mem_take_iff_getD datain colour_array num_colours hnc]
        refine ⟨i, hi, ?_⟩
        rw [List.getD_eq_getElem _ _ hib]
        rw [List.getElem?_eq_getElem hib] at hget
        exact Option.some.inj hget
      obtain ⟨hfi, hlt, hfget⟩ := fill_index_of_mem datain colour_array num_colours hnc hmem
      have heq : fill_index datain colour_array num_colours = i := by
        rcases lt_trichotomy (fill_index datain colour_array num_colours) i with h | h | h
        · exact absurd hfget (hleast _ h)
        · exact h
        · exfalso
          rw [hfi] at h
          have hb := find_colour_before datain colour_array num_colours i h
          rw [List.getD_eq_getElem _ _ hib] at hb
          rw [List.getElem?_eq_getElem hib] at hget
          exact hb (Option.some.inj hget)
      rw [heq, Nat.mod_eq_of_lt (lt_of_lt_of_le hi h256)]
    · intro hnone
      have hnot : datain ∉ colour_array.take num_colours := by
        rw [mem_take_iff_getD datain colour_array num_colours hnc]
        rintro ⟨j, hj, hjd⟩
        have hjb : j < colour_array.length := lt_of_lt_of_le hj hnc
        rw [List.getD_eq_getElem _ _ hjb] at hjd
        exact hnone j hj (by rw [List.getElem?_eq_getElem hjb, hjd])
      rw [fill_index_of_not_mem datain colour_array num_colours hnc hnot]
  · intro A B C buffer hAB hAC hBC hbuf
    match buffer, hbuf with
    | a :: b :: tl, _ =>
      have hBA : B ≠ A := fun h => hAB h.symm
      have hCA : C ≠ A := fun h => hAC h.symm
      have hCB : C ≠ B := fun h => hBC h.symm
      refine ⟨⟨⟨A :: B :: tl, 2⟩, [C]⟩, ?_, ?_, ?_⟩
      · simp [create_unique_colors_array_cap, create_unique_colors_loop,
          create_unique_colors_body, find_colour, scan_colours, hBA]
      · simp [ColourTable.entries]
      · simp [fill_raw_image_array, fill_raw_image_loop, fill_index, find_colour,
          scan_colours, hBA, hCA, hCB]

/-- Witness of C3: the pixels `[7, 9, 5]` mapped through the two entries in use
of the buffer `[5, 7, 5]`. -/
theorem fill_raw_image_array_least_match_witness :
    (∃ raster, fill_raw_image_array [7, 9, 5] [5, 7, 5] ((3 : Nat) : Int) 2 = some raster ∧
      raster.length = 3 ∧
      ∀ p datain, p < 3 → [(7 : Int), 9, 5][p]? = some datain →
        (∀ i, i < 2 → [(5 : Int), 7, 5][i]? = some datain →
          (∀ j, j < i → [(5 : Int), 7, 5][j]? ≠ some datain) → raster[p]? = some i) ∧
        ((∀ i, i < 2 → [(5 : Int), 7, 5][i]? ≠ some datain) → raster[p]? = some 0)) ∧
    (∀ (A B C : Int) (buffer : List Int), A ≠ B → A ≠ C → B ≠ C → 2 ≤ buffer.length →
      ∃ r, create_unique_colors_array_cap 2 [A, B, C] buffer ((3 : Nat) : Int) = some r ∧
        r.table.entries = [A, B] ∧
        fill_raw_image_array [A, B, C] r.table.colour_array ((3 : Nat) : Int)
          r.table.num_colours = some [0, 1, 0]) :=
  fill_raw_image_array_least_match [7, 9, 5] [5, 7, 5] 2 3 (by decide) (by decide) (by decide)

/-- C4: for every 16-bit raw value held in the signed colour array, negative
ones included, `load_png_palettes` passes on the entry `(r8, g8, b8, 255)` with
`r8 = 8 * (bits 15-11)`, `g8 = 4 * (bits 10-5)`, `b8 = 8 * (bits 4-0)`, each at
most 255; the words `0xF800`, `0x07E0`, `0x001F`, `0xFFFF` give
`(248,0,0,255)`, `(0,252,0,255)`, `(0,0,248,255)`, `(248,252,248,255)`. -/
theorem load_png_palettes_widening (color_array : List Int) (num_colors i raw : Nat)
    (hi : i < num_colors) (hraw : raw < 65536)
    (hcell : color_array[i]? = some (int16_of_raw raw)) :
    (load_png_palettes color_array num_colors)[i]? =
        some (8 * (raw / 2048 % 32), 4 * (raw / 32 % 64), 8 * (raw % 32), 255) ∧
      8 * (raw / 2048 % 32) ≤ 255 ∧ 4 * (raw / 32 % 64) ≤ 255 ∧ 8 * (raw % 32) ≤ 255 ∧
      (int16_of_raw 0xF800 < 0 ∧ int16_of_raw 0xFFFF < 0) ∧
      load_png_palettes
          [int16_of_raw 0xF800, int16_of_raw 0x07E0, int16_of_raw 0x001F, int16_of_raw 0xFFFF] 4 =
        [(248, 0, 0, 255), (0, 252, 0, 255), (0, 0, 248, 255), (248, 252, 248, 255)] := by
  refine ⟨?_, by omega, by omega, by omega, ⟨by decide, by decide⟩, ?_⟩
  · have hget : color_array.getD i 0 = int16_of_raw raw := by
      rw [List.getD_eq_getElem?_getD, hcell]
      rfl
    unfold load_png_palettes
    rw [List.getElem?_map, List.getElem?_range hi]
    simp only [Option.map_some', hget, palette_entry_int16 raw hraw]
  · simp only [load_png_palettes, List.range, List.range.loop, List.map, List.getD_cons_zero,
      List.getD_cons_succ]
    rw [palette_entry_int16 _ (by decide), palette_entry_int16 _ (by decide),
      palette_entry_int16 _ (by decide), palette_entry_int16 _ (by decide)]

/-- Witness of C4: the word `0x8410`, a negative `int16_t`, in cell 1. -/
theorem load_png_palettes_widening_witness :
    (load_png_palettes [0, int16_of_raw 0x8410] 2)[1]? =
        some (8 * (0x8410 / 2048 % 32), 4 * (0x8410 / 32 % 64), 8 * (0x8410 % 32), 255) ∧
      8 * (0x8410 / 2048 % 32) ≤ 255 ∧ 4 * (0x8410 / 32 % 64) ≤ 255 ∧
      8 * (0x8410 % 32) ≤ 255 ∧
      (int16_of_raw 0xF800 < 0 ∧ int16_of_raw 0xFFFF < 0) ∧
      load_png_palettes
          [int16_of_raw 0xF800, int16_of_raw 0x07E0, int16_of_raw 0x001F, int16_of_raw 0xFFFF] 4 =
        [(248, 0, 0, 255), (0, 252, 0, 255), (0, 0, 248, 255), (248, 252, 248, 255)] :=
  load_png_palettes_widening [0, int16_of_raw 0x8410] 2 1 0x8410 (by decide) (by decide) rfl

/-- C5: the palette invariant of the builder loop.  An iteration entered under
the loop condition `num_colours < MAX_PALETTE_SIZE` from a table with pairwise
distinct entries leaves pairwise distinct entries, at most 256 of them; the
only cell it may write is `colour_array[num_colours]`, which lies inside the
256-cell buffer; the entries present before are a prefix of those after.  The
table at loop entry satisfies the invariant, and so does every table the loop
returns, whose entries extend those of every earlier iteration. -/
theorem create_unique_colors_palette_invariant (t : ColourTable) (datain : Int)
    (hinv : PaletteInvariant t) (hcond : t.num_colours < MAX_PALETTE_SIZE) :
    PaletteInvariant (create_unique_colors_body datain t) ∧
      (create_unique_colors_body datain t).num_colours ≤ 256 ∧
      t.num_colours < t.colour_array.length ∧
      (∀ j, j ≠ t.num_colours →
        (create_unique_colors_body datain t).colour_array[j]? = t.colour_array[j]?) ∧
      (create_unique_colors_body datain t).colour_array.length = t.colour_array.length ∧
      t.entries <+: (create_unique_colors_body datain t).entries ∧
      (∀ (file : List Int) (num_pixels : Int) (r : CreateResult),
        create_unique_colors_loop MAX_PALETTE_SIZE file num_pixels t = some r →
          PaletteInvariant r.table ∧ t.entries <+: r.table.entries) ∧
      (∀ (file buffer : List Int) (num_pixels : Int) (r : CreateResult),
        MAX_PALETTE_SIZE ≤ buffer.length →
        create_unique_colors_array file buffer num_pixels = some r →
          PaletteInvariant { colour_array := buffer, num_colours := 0 } ∧
          PaletteInvariant r.table) := by
  obtain ⟨hnd, hle, hbuf⟩ := hinv
  have hlt : t.num_colours < t.colour_array.length := lt_of_lt_of_le hcond hbuf
  obtain ⟨hp, hn1, hl, hnd2, hcells⟩ := body_prefix datain t hlt
  have hle2 : (create_unique_colors_body datain t).num_colours ≤ MAX_PALETTE_SIZE :=
    le_trans hn1 hcond
  refine ⟨⟨hnd2 hnd, hle2, by rw [hl]; exact hbuf⟩, hle2, hlt, hcells, hl, hp, ?_, ?_⟩
  · intro file num_pixels r hrun
    obtain ⟨a, b, c, e⟩ := create_unique_colors_loop_invariant MAX_PALETTE_SIZE file
      num_pixels t r hle hbuf hnd hrun
    exact ⟨⟨a, b, by rw [c]; exact hbuf⟩, e⟩
  · intro file buffer num_pixels r hb hrun
    have h0 : (ColourTable.mk buffer 0).entries.Nodup := by
      simp [ColourTable.entries]
    obtain ⟨a, b, c, _⟩ := create_unique_colors_loop_invariant MAX_PALETTE_SIZE file
      num_pixels ⟨buffer, 0⟩ r (Nat.zero_le _) hb h0 hrun
    exact ⟨⟨h0, Nat.zero_le _, hb⟩, ⟨a, b, by rw [c]; exact hb⟩⟩

set_option maxRecDepth 100000 in
/-- Witness of C5: the table holding `[5, 7]` in a 256-cell buffer, and the new
pixel `9`. -/
theorem create_unique_colors_palette_invariant_witness :
    PaletteInvariant (create_unique_colors_body 9 ⟨5 :: 7 :: List.replicate 254 0, 2⟩) ∧
      (create_unique_colors_body 9 ⟨5 :: 7 :: List.replicate 254 0, 2⟩).entries = [5, 7, 9] :=
  ⟨(create_unique_colors_palette_invariant ⟨5 :: 7 :: List.replicate 254 0, 2⟩ 9
      ⟨by decide, by decide, by decide⟩ (by decide)).1, by decide⟩

/-- C6: for every pixel stream holding the `num_pixels >= 1` pixels asked for,
both passes return, the index raster has exactly `num_pixels` entries, entry `p`
being the index computed for pixel `p`, and every index, a fallback 0 included,
is below the palette length and so at most 255: the store into an
`unsigned char` keeps it unchanged. -/
theorem index_raster_within_palette (stream colour_array : List Int) (n : Nat)
    (hbuf : MAX_PALETTE_SIZE ≤ colour_array.length) (hpos : 1 ≤ n) (hn : n ≤ stream.length) :
    ∃ r raster, create_unique_colors_array stream colour_array (n : Int) = some r ∧
      fill_raw_image_array stream r.table.colour_array (n : Int) r.table.num_colours =
        some raster ∧
      raster.length = n ∧ r.table.num_colours ≤ 256 ∧
      ∀ p, p < n → ∃ d, stream[p]? = some d ∧
        raster[p]? = some (fill_index d r.table.colour_array r.table.num_colours) ∧
        fill_index d r.table.colour_array r.table.num_colours < r.table.num_colours ∧
        fill_index d r.table.colour_array r.table.num_colours ≤ 255 ∧
        fill_index d r.table.colour_array r.table.num_colours % 256 =
          fill_index d r.table.colour_array r.table.num_colours := by
  obtain ⟨r, hr, _, hc, _⟩ :=
    create_unique_colors_array_cap_spec MAX_PALETTE_SIZE stream colour_array n hn hbuf
  have hnc256 : r.table.num_colours ≤ 256 := by
    rw [hc]; exact min_le_left _ _
  have hne : stream.take n ≠ [] := by
    intro h
    have hl : (stream.take n).length = n := by simp [hn]
    rw [h] at hl
    simp at hl
    omega
  have hcard : 0 < (stream.take n).toFinset.card :=
    Finset.card_pos.2 (List.toFinset_nonempty_iff _ |>.2 hne)
  have hncpos : 0 < r.table.num_colours := by
    rw [hc]; exact lt_min (by decide) hcard
  refine ⟨r, _, hr, fill_raw_image_loop_spec _ _ stream n hn, by simp [hn], hnc256, ?_⟩
  intro p hp
  have hps : p < stream.length := lt_of_lt_of_le hp hn
  have hlt := fill_index_lt stream[p] r.table.colour_array r.table.num_colours hncpos
  have h255 : fill_index stream[p] r.table.colour_array r.table.num_colours ≤ 255 := by omega
  have hmod : fill_index stream[p] r.table.colour_array r.table.num_colours % 256 =
      fill_index stream[p] r.table.colour_array r.table.num_colours :=
    Nat.mod_eq_of_lt (by omega)
  refine ⟨stream[p], List.getElem?_eq_getElem hps, ?_, hlt, h255, hmod⟩
  rw [List.getElem?_map, List.getElem?_take_of_lt hp, List.getElem?_eq_getElem hps]
  simp only [Option.map_some', hmod]

/-- Witness of C6 on the stream `[5, 7, 5]` with a zeroed 256-entry buffer. -/
theorem index_raster_within_palette_witness :
    ∃ r raster, create_unique_colors_array [5, 7, 5] (List.replicate 256 0) ((3 : Nat) : Int)
        = some r ∧
      fill_raw_image_array [5, 7, 5] r.table.colour_array ((3 : Nat) : Int) r.table.num_colours =
        some raster ∧
      raster.length = 3 ∧ r.table.num_colours ≤ 256 ∧
      ∀ p, p < 3 → ∃ d, [(5 : Int), 7, 5][p]? = some d ∧
        raster[p]? = some (fill_index d r.table.colour_array r.table.num_colours) ∧
        fill_index d r.table.colour_array r.table.num_colours < r.table.num_colours ∧
        fill_index d r.table.colour_array r.table.num_colours ≤ 255 ∧
        fill_index d r.table.colour_array r.table.num_colours % 256 =
          fill_index d r.table.colour_array r.table.num_colours :=
  index_raster_within_palette [5, 7, 5] (List.replicate 256 0) 3
    (by rw [List.length_replicate]; exact Nat.le_refl 256) (by decide) (by simp)

/-- C7, as stated, fails: the 258-pixel stream `0, 1, ..., 256, 0` contains a
duplicate and holds 257 distinct raw values, yet the palette built from it has
256 entries. -/
theorem distinct_values_exceed_palette_counterexample :
    ¬ ((List.range 257).map Int.ofNat ++ [0]).Nodup ∧
      ((List.range 257).map Int.ofNat ++ [0]).toFinset.card = 257 ∧
      ∃ r, create_unique_colors_array ((List.range 257).map Int.ofNat ++ [0])
          (List.replicate 256 0) ((258 : Nat) : Int) = some r ∧
        r.table.num_colours = 256 ∧
        r.table.num_colours ≠ ((List.range 257).map Int.ofNat ++ [0]).toFinset.card := by
  have hmem : (0 : Int) ∈ (List.range 257).map Int.ofNat :=
    List.mem_map.2 ⟨0, List.mem_range.2 (by decide), rfl⟩
  have hcard : ((List.range 257).map Int.ofNat ++ [0]).toFinset.card = 257 := by
    rw [List.toFinset_append]
    have hsub : ([(0 : Int)].toFinset) ⊆ ((List.range 257).map Int.ofNat).toFinset := by
      intro x hx
      simp only [List.toFinset_cons, List.toFinset_nil, insert_emptyc_eq,
        Finset.mem_singleton] at hx
      rw [hx]
      exact List.mem_toFinset.2 hmem
    rw [Finset.union_eq_left.2 hsub, card_ramp]
  have hlen : ((List.range 257).map Int.ofNat ++ [0]).length = 258 := by simp
  refine ⟨?_, hcard, ?_⟩
  · intro hnd
    have := List.toFinset_card_of_nodup hnd
    rw [hcard, hlen] at this
    exact absurd this (by decide)
  · obtain ⟨r, hr, _, hc, _⟩ := create_unique_colors_array_cap_spec MAX_PALETTE_SIZE
      ((List.range 257).map Int.ofNat ++ [0]) (List.replicate 256 0) 258
      (le_of_eq hlen.symm) (by rw [List.length_replicate]; exact Nat.le_refl 256)
    have hnum : r.table.num_colours = 256 := by
      rw [hc, List.take_of_length_le (le_of_eq hlen), hcard]
      rfl
    exact ⟨r, hr, hnum, by rw [hnum, hcard]; decide⟩

/-- C7, amended: for every pixel stream that contains duplicate raw values and
holds at most 256 distinct raw values, scanned in full, the palette length is
the number of distinct raw values and every pixel's index refers to a palette
entry equal to that pixel's raw value. -/
theorem palette_length_with_duplicates (stream colour_array : List Int)
    (hbuf : MAX_PALETTE_SIZE ≤ colour_array.length) (_hdup : ¬ stream.Nodup)
    (hdistinct : stream.toFinset.card ≤ 256) :
    ∃ r raster, create_unique_colors_array stream colour_array (stream.length : Int) = some r ∧
      fill_raw_image_array stream r.table.colour_array (stream.length : Int)
        r.table.num_colours = some raster ∧
      r.table.num_colours = stream.toFinset.card ∧
      r.table.entries.length = stream.toFinset.card ∧
      ∀ p, p < stream.length → ∃ i, raster[p]? = some i ∧ i < r.table.num_colours ∧
        r.table.colour_array[i]? = stream[p]? := by
  have htake : stream.take stream.length = stream := List.take_of_length_le (le_refl _)
  obtain ⟨r, raster, h1, h2, _, h4, h5⟩ := two_pass_within_capacity stream colour_array
    stream.length hbuf (le_refl _) (by rw [htake]; exact hdistinct)
  rw [htake] at h4
  have hlenE : r.table.entries.length = r.table.num_colours := by
    obtain ⟨_, hc, hl⟩ := create_unique_colors_array_cap_entries MAX_PALETTE_SIZE stream
      colour_array stream.length r hbuf h1
    apply r.table.length_entries
    rw [hc, hl]
    exact le_trans (min_le_left _ _) hbuf
  refine ⟨r, raster, h1, h2, h4, by rw [hlenE, h4], ?_⟩
  intro p hp
  obtain ⟨i, a, b, c, _⟩ := h5 p hp
  exact ⟨i, a, b, c⟩

/-- Witness of the amended C7 on the stream `[5, 7, 5]`. -/
theorem palette_length_with_duplicates_witness :
    ∃ r raster, create_unique_colors_array [5, 7, 5] (List.replicate 256 0)
        (([(5 : Int), 7, 5].length : Nat) : Int) = some r ∧
      fill_raw_image_array [5, 7, 5] r.table.colour_array
        (([(5 : Int), 7, 5].length : Nat) : Int) r.table.num_colours = some raster ∧
      r.table.num_colours = [(5 : Int), 7, 5].toFinset.card ∧
      r.table.entries.length = [(5 : Int), 7, 5].toFinset.card ∧
      ∀ p, p < [(5 : Int), 7, 5].length → ∃ i, raster[p]? = some i ∧
        i < r.table.num_colours ∧ r.table.colour_array[i]? = [(5 : Int), 7, 5][p]? :=
  palette_length_with_duplicates [5, 7, 5] (List.replicate 256 0)
    (by rw [List.length_replicate]; exact Nat.le_refl 256) (by decide) (by decide)

/-- C8, as stated, fails: with the same buffer and the same pixel count 257, the
stream `0, ..., 255, 0` (256 distinct values) and the stream `0, ..., 255, 256`
(257 distinct values) give the same count and the same colour array, yet only
the second holds more than 256 distinct values. -/
theorem overflow_not_reported_counterexample :
    ∃ r1 r2,
      create_unique_colors_array ((List.range 256).map Int.ofNat ++ [0])
        (List.replicate 256 0) ((257 : Nat) : Int) = some r1 ∧
      create_unique_colors_array ((List.range 256).map Int.ofNat ++ [256])
        (List.replicate 256 0) ((257 : Nat) : Int) = some r2 ∧
      r1.table = r2.table ∧
      ¬ (256 < ((List.range 256).map Int.ofNat ++ [0]).toFinset.card) ∧
      256 < ((List.range 256).map Int.ofNat ++ [256]).toFinset.card := by
  have hb : MAX_PALETTE_SIZE ≤ (List.replicate 256 (0 : Int)).length := by
    rw [List.length_replicate]; exact Nat.le_refl 256
  obtain ⟨r, hr, _, h0⟩ :=
    create_unique_colors_array_ramp (List.replicate 256 0) [0] 257 hb (by decide)
  obtain ⟨r', hr', _, h256⟩ :=
    create_unique_colors_array_ramp (List.replicate 256 0) [256] 257 hb (by decide)
  have hrr : r' = r := Option.some.inj (hr'.symm.trans hr)
  subst hrr
  have hmem : (0 : Int) ∈ (List.range 256).map Int.ofNat :=
    List.mem_map.2 ⟨0, List.mem_range.2 (by decide), rfl⟩
  have hcard0 : ((List.range 256).map Int.ofNat ++ [0]).toFinset.card = 256 := by
    rw [List.toFinset_append]
    have hsub : ([(0 : Int)].toFinset) ⊆ ((List.range 256).map Int.ofNat).toFinset := by
      intro x hx
      simp only [List.toFinset_cons, List.toFinset_nil, insert_emptyc_eq,
        Finset.mem_singleton] at hx
      rw [hx]
      exact List.mem_toFinset.2 hmem
    rw [Finset.union_eq_left.2 hsub, card_ramp]
  have hramp : (List.range 256).map Int.ofNat ++ [256] = (List.range 257).map Int.ofNat := by
    have hsucc : List.range 257 = List.range 256 ++ [256] := List.range_succ 256
    rw [hsucc, List.map_append, List.map_cons, List.map_nil]
    rfl
  have hcard256 : ((List.range 256).map Int.ofNat ++ [256]).toFinset.card = 257 := by
    rw [hramp, card_ramp]
  refine ⟨_, _, h0, h256, rfl, by rw [hcard0]; decide, by rw [hcard256]; decide⟩

/-- C8, amended: the result of `create_unique_colors_array` (count and colour
array) determines whether the scanned pixels hold at least 256 distinct raw
values, not whether they hold more than 256: two runs that give the same result
either both scanned at least 256 distinct values or both scanned fewer, and a
count below 256 is the exact number of distinct values. -/
theorem palette_count_reports_reaching_capacity (stream1 stream2 buffer1 buffer2 : List Int)
    (n1 n2 : Nat) (r1 r2 : CreateResult)
    (hbuf1 : MAX_PALETTE_SIZE ≤ buffer1.length) (hbuf2 : MAX_PALETTE_SIZE ≤ buffer2.length)
    (hrun1 : create_unique_colors_array stream1 buffer1 (n1 : Int) = some r1)
    (hrun2 : create_unique_colors_array stream2 buffer2 (n2 : Int) = some r2)
    (hsame : r1.table = r2.table) :
    (256 ≤ (stream1.take n1).toFinset.card ↔ 256 ≤ (stream2.take n2).toFinset.card) ∧
      r1.table.num_colours = min 256 (stream1.take n1).toFinset.card ∧
      (r1.table.num_colours < 256 →
        (stream1.take n1).toFinset.card = r1.table.num_colours ∧
        (stream2.take n2).toFinset.card = r1.table.num_colours) := by
  obtain ⟨_, hc1, _⟩ := create_unique_colors_array_cap_entries MAX_PALETTE_SIZE stream1
    buffer1 n1 r1 hbuf1 hrun1
  obtain ⟨_, hc2, _⟩ := create_unique_colors_array_cap_entries MAX_PALETTE_SIZE stream2
    buffer2 n2 r2 hbuf2 hrun2
  have hnum : r1.table.num_colours = r2.table.num_colours := by rw [hsame]
  have hM : MAX_PALETTE_SIZE = 256 := rfl
  rw [hM] at hc1 hc2
  refine ⟨?_, hc1, ?_⟩
  · constructor <;> intro h <;> omega
  · intro hlt
    constructor <;> omega

set_option maxRecDepth 100000 in
/-- Witness of the amended C8: the streams `[5, 7, 5]` and `[5, 7, 7]` leave the
same table in a zeroed 256-entry buffer. -/
theorem palette_count_reports_reaching_capacity_witness :
    (256 ≤ (List.take 3 [(5 : Int), 7, 5]).toFinset.card ↔
        256 ≤ (List.take 3 [(5 : Int), 7, 7]).toFinset.card) ∧
      (CreateResult.mk ⟨5 :: 7 :: List.replicate 254 0, 2⟩ []).table.num_colours =
        min 256 (List.take 3 [(5 : Int), 7, 5]).toFinset.card ∧
      ((CreateResult.mk ⟨5 :: 7 :: List.replicate 254 0, 2⟩ []).table.num_colours < 256 →
        (List.take 3 [(5 : Int), 7, 5]).toFinset.card =
          (CreateResult.mk ⟨5 :: 7 :: List.replicate 254 0, 2⟩ []).table.num_colours ∧
        (List.take 3 [(5 : Int), 7, 7]).toFinset.card =
          (CreateResult.mk ⟨5 :: 7 :: List.replicate 254 0, 2⟩ []).table.num_colours) :=
  palette_count_reports_reaching_capacity [5, 7, 5] [5, 7, 7] (List.replicate 256 0)
    (List.replicate 256 0) 3 3 ⟨⟨5 :: 7 :: List.replicate 254 0, 2⟩, []⟩
    ⟨⟨5 :: 7 :: List.replicate 254 0, 2⟩, []⟩
    (by rw [List.length_replicate]; exact Nat.le_refl 256)
    (by rw [List.length_replicate]; exact Nat.le_refl 256)
    (by decide) (by decide) rfl

/-- C9: for every source that holds fewer complete pixels than the declared
`num_pixels`, the palette pass followed by the mapping pass ends in failure
and yields no index raster: the mapping pass exits whatever table it is given.
This covers the case where the palette pass itself returns because it stopped
at 256 colours, as it does on the 256-pixel source `0, ..., 255` with
`num_pixels = 1000`. -/
theorem truncated_source_fails (stream colour_array : List Int) (n : Nat)
    (hshort : stream.length < n) :
    main_two_pass stream colour_array (n : Int) = none ∧
      (∀ (colours : List Int) (num_colours : Nat),
        fill_raw_image_array stream colours (n : Int) num_colours = none) ∧
      (∃ r, create_unique_colors_array ((List.range 256).map Int.ofNat)
          (List.replicate 256 0) ((1000 : Nat) : Int) = some r ∧
        r.table.num_colours = 256 ∧
        main_two_pass ((List.range 256).map Int.ofNat) (List.replicate 256 0)
          ((1000 : Nat) : Int) = none) := by
  have hfill : ∀ (file : List Int) (m : Nat), file.length < m →
      ∀ (buffer : List Int), main_two_pass file buffer (m : Int) = none := by
    intro file m hm buffer
    unfold main_two_pass
    cases create_unique_colors_array file buffer (m : Int) with
    | none => rfl
    | some r =>
      simp only [fill_raw_image_array, fill_raw_image_loop_truncated _ _ file m hm]
  refine ⟨hfill stream n hshort colour_array,
    fun colours num_colours => fill_raw_image_loop_truncated colours num_colours stream n hshort,
    ?_⟩
  obtain ⟨r, _, hfull, hrun⟩ := create_unique_colors_array_ramp (List.replicate 256 0) []
    1000 (by rw [List.length_replicate]; exact Nat.le_refl 256) (by decide)
  rw [List.append_nil] at hrun
  exact ⟨_, hrun, hfull, hfill _ 1000 (by simp) _⟩

/-- Witness of C9: a two-pixel source read with `num_pixels = 3`. -/
theorem truncated_source_fails_witness :
    main_two_pass [5, 7] (List.replicate 256 0) ((3 : Nat) : Int) = none :=
  (truncated_source_fails [5, 7] (List.replicate 256 0) 3 (by decide)).1

/-- C10: with `num_pixels = 0`, whatever the source holds,
`create_unique_colors_array` returns the count 0 with the whole source still
unread and the buffer untouched, `fill_raw_image_array` returns having stored
no index, and the two passes together give an empty palette and an empty
index raster. -/
theorem zero_pixels_empty_outputs (file colour_array colours : List Int) (num_colours : Nat) :
    create_unique_colors_array file colour_array 0 =
        some { table := { colour_array := colour_array, num_colours := 0 }, unread := file } ∧
      (ColourTable.mk colour_array 0).entries = [] ∧
      fill_raw_image_array file colours 0 num_colours = some [] ∧
      main_two_pass file colour_array 0 = some ({ colour_array := colour_array, num_colours := 0 }, []) ∧
      create_unique_colors_array [] colour_array 0 =
        some { table := { colour_array := colour_array, num_colours := 0 }, unread := [] } ∧
      fill_raw_image_array [] colours 0 num_colours = some [] := by
  have hc : ∀ f : List Int, create_unique_colors_array f colour_array 0 =
      some { table := { colour_array := colour_array, num_colours := 0 }, unread := f } := by
    intro f
    cases f <;>
      simp [create_unique_colors_array, create_unique_colors_array_cap,
        create_unique_colors_loop]
  have hf : ∀ (f c : List Int) (k : Nat), fill_raw_image_array f c 0 k = some [] := by
    intro f c k
    cases f <;> simp [fill_raw_image_array, fill_raw_image_loop]
  refine ⟨hc file, by simp [ColourTable.entries], hf file colours num_colours, ?_, hc [],
    hf [] colours num_colours⟩
  simp only [main_two_pass, hc file, hf]

/-- C15: the early exit of the palette pass.  When the first `k` pixels of a
stream hold 256 distinct raw values and no shorter prefix does, then for every
`num_pixels >= k` `create_unique_colors_array` returns having read exactly `k`
pixels, and its palette is the de-duplication of those `k` pixels; any second
stream that agrees on its first `k` pixels gives the same palette, whatever
follows them and whatever its own `num_pixels >= k` (more than it holds
included). -/
theorem create_unique_colors_array_early_exit (stream stream2 buffer buffer2 : List Int)
    (k n n2 : Nat)
    (hbuf : MAX_PALETTE_SIZE ≤ buffer.length) (hbuf2 : MAX_PALETTE_SIZE ≤ buffer2.length)
    (hk : (stream.take k).toFinset.card = 256)
    (hmin : ∀ j, j < k → (stream.take j).toFinset.card < 256)
    (hkn : k ≤ n) (hkn2 : k ≤ n2) (hagree : stream2.take k = stream.take k) :
    ∃ r r2, create_unique_colors_array stream buffer (n : Int) = some r ∧
      create_unique_colors_array stream2 buffer2 (n2 : Int) = some r2 ∧
      r.unread = stream.drop k ∧ r.unread.length + k = stream.length ∧
      r2.unread = stream2.drop k ∧ r2.unread.length + k = stream2.length ∧
      r.table.entries = first_seen (stream.take k) ∧
      r.table.num_colours = 256 ∧
      r2.table.entries = r.table.entries ∧
      r2.table.num_colours = r.table.num_colours ∧
      (buffer2 = buffer → r2.table = r.table) := by
  have htake2 : ∀ j, j ≤ k → stream2.take j = stream.take j := by
    intro j hj
    have h1 : stream2.take j = (stream2.take k).take j := by
      rw [List.take_take, min_eq_left hj]
    have h2 : stream.take j = (stream.take k).take j := by
      rw [List.take_take, min_eq_left hj]
    rw [h1, h2, hagree]
  have hk2 : (stream2.take k).toFinset.card = 256 := by rw [hagree]; exact hk
  have hmin2 : ∀ j, j < k → (stream2.take j).toFinset.card < 256 := by
    intro j hj
    rw [htake2 j (le_of_lt hj)]
    exact hmin j hj
  obtain ⟨hlen, r, hr, hu, hpre, he, hnum⟩ :=
    create_unique_colors_array_stops_at stream buffer k n hbuf hk hmin hkn
  obtain ⟨hlen2, r2, hr2, hu2, hpre2, he2, hnum2⟩ :=
    create_unique_colors_array_stops_at stream2 buffer2 k n2 hbuf2 hk2 hmin2 hkn2
  refine ⟨r, r2, hr, hr2, hu, ?_, hu2, ?_, he, hnum, ?_, by rw [hnum, hnum2], ?_⟩
  · rw [hu, List.length_drop]; omega
  · rw [hu2, List.length_drop]; omega
  · rw [he2, he, hagree]
  · intro hsame
    rw [hsame, hagree, hpre] at hpre2
    have := Option.some.inj hpre2
    exact (congrArg CreateResult.table this).symm

/-- Witness of C15: the stream `0, ..., 255` against the stream
`0, ..., 255, 7` read with `num_pixels = 1000`. -/
theorem create_unique_colors_array_early_exit_witness :
    ∃ r r2, create_unique_colors_array ((List.range 256).map Int.ofNat)
        (List.replicate 256 0) ((256 : Nat) : Int) = some r ∧
      create_unique_colors_array ((List.range 256).map Int.ofNat ++ [7])
        (List.replicate 256 0) ((1000 : Nat) : Int) = some r2 ∧
      r2.unread = [7] ∧ r2.table = r.table := by
  have hlen : ((List.range 256).map Int.ofNat).length = 256 := by
    rw [List.length_map, List.length_range]
  have htake : ((List.range 256).map Int.ofNat).take 256 = (List.range 256).map Int.ofNat :=
    List.take_of_length_le (le_of_eq hlen)
  have hb : MAX_PALETTE_SIZE ≤ (List.replicate 256 (0 : Int)).length := by
    rw [List.length_replicate]; exact Nat.le_refl 256
  have hagree : ((List.range 256).map Int.ofNat ++ [7]).take 256 =
      ((List.range 256).map Int.ofNat).take 256 := by
    rw [htake, List.take_append_of_le_length (le_of_eq hlen.symm), htake]
  obtain ⟨r, r2, h1, h2, _, _, h5, _, _, _, _, _, h11⟩ :=
    create_unique_colors_array_early_exit ((List.range 256).map Int.ofNat)
      ((List.range 256).map Int.ofNat ++ [7]) (List.replicate 256 0) (List.replicate 256 0)
      256 256 1000 hb hb
      (by rw [htake]; exact card_ramp 256)
      (by
        intro j hj
        refine lt_of_le_of_lt (List.toFinset_card_le _) ?_
        rw [List.length_take]
        exact lt_of_le_of_lt (min_le_left _ _) hj)
      (le_refl _) (by decide) hagree
  refine ⟨r, r2, h1, h2, ?_, h11 rfl⟩
  rw [h5, List.drop_append_of_le_length (le_of_eq hlen.symm), List.drop_of_length_le
    (le_of_eq hlen), List.nil_append]

/-- C19: the channel widening of `load_png_palettes` is injective on 16-bit raw
values: equal `(r8, g8, b8)` triples come from equal words.  Hence, for every
stream of `int16_t` values, the list of RGBA entries loaded from the palette
that `create_unique_colors_array` builds is pairwise distinct, one entry per
palette colour. -/
theorem load_png_palettes_distinct (stream buffer : List Int) (n : Nat)
    (hbuf : MAX_PALETTE_SIZE ≤ buffer.length)
    (hrange : ∀ x ∈ stream, -32768 ≤ x ∧ x < 32768) :
    (∀ a b : Nat, a < 65536 → b < 65536 →
      ((palette_entry (int16_of_raw a)).1, (palette_entry (int16_of_raw a)).2.1,
          (palette_entry (int16_of_raw a)).2.2.1) =
        ((palette_entry (int16_of_raw b)).1, (palette_entry (int16_of_raw b)).2.1,
          (palette_entry (int16_of_raw b)).2.2.1) → a = b) ∧
    (∀ a : Nat, a < 65536 →
      load_png_palettes [int16_of_raw a] 1 = [palette_entry (int16_of_raw a)]) ∧
    (n ≤ stream.length →
      ∃ r, create_unique_colors_array stream buffer (n : Int) = some r) ∧
    (∀ r, create_unique_colors_array stream buffer (n : Int) = some r →
      (load_png_palettes r.table.colour_array r.table.num_colours).Nodup ∧
      (load_png_palettes r.table.colour_array r.table.num_colours).length =
        r.table.num_colours) := by
  refine ⟨?_, ?_, ?_, ?_⟩
  · intro a b ha hb h
    rw [palette_entry_int16 a ha, palette_entry_int16 b hb] at h
    simp only [Prod.mk.injEq] at h
    omega
  · intro a _
    rfl
  · intro hn
    exact create_unique_colors_loop_returns MAX_PALETTE_SIZE stream n ⟨buffer, 0⟩ hn
  · intro r hrun
    exact load_png_palettes_nodup stream buffer n r hbuf hrange hrun

/-- Witness of C19: the stream `[5, -7, 5]` with a zeroed 256-entry buffer. -/
theorem load_png_palettes_distinct_witness :
    (∃ r, create_unique_colors_array [5, -7, 5] (List.replicate 256 0) ((3 : Nat) : Int) =
        some r) ∧
    ∀ r, create_unique_colors_array [5, -7, 5] (List.replicate 256 0) ((3 : Nat) : Int) =
        some r →
      (load_png_palettes r.table.colour_array r.table.num_colours).Nodup ∧
      (load_png_palettes r.table.colour_array r.table.num_colours).length =
        r.table.num_colours :=
  have h := load_png_palettes_distinct [5, -7, 5] (List.replicate 256 0) 3
    (by rw [List.length_replicate]; exact Nat.le_refl 256) (by decide)
  ⟨h.2.2.1 (by decide), h.2.2.2⟩

end Fb2Png

namespace Fb2Bmp

open Fb2Png

/-! ## The BMP headers -/

theorem low_byte_eq (v : Int) : low_byte v = (v % 256).toNat := by
  unfold low_byte promoted_bits
  rw [land_00ff]
  omega

theorem four_bytes_eq (v : Int) :
    four_bytes v = [(v % 256).toNat, (v / 256 % 256).toNat, (v / 65536 % 256).toNat,
      (v / 16777216 % 256).toNat] := by
  simp only [four_bytes, low_byte_eq, Int.shiftRight_eq_div_pow]
  norm_num

/-- Four bytes written for a 32-bit `int` decode, least-significant byte first,
to its two's-complement encoding, and as a signed value to the `int` itself. -/
theorem le32_four_bytes (v : Int) (hlo : -2147483648 ≤ v) (hhi : v < 2147483648) :
    le32 (four_bytes v) = (v % 4294967296).toNat ∧ le32_signed (four_bytes v) = v ∧
      (four_bytes v).length = 4 ∧ ∀ b ∈ four_bytes v, b < 256 := by
  have hle : le32 (four_bytes v) = (v % 4294967296).toNat := by
    rw [four_bytes_eq]
    simp only [le32, List.getD_cons_zero, List.getD_cons_succ]
    omega
  refine ⟨hle, ?_, by simp [four_bytes], ?_⟩
  · unfold le32_signed
    rw [hle]
    by_cases h : (v % 4294967296).toNat < 2147483648
    · simp only [h, if_true]
      omega
    · simp only [h, if_false]
      omega
  · intro b hb
    rw [four_bytes_eq] at hb
    simp only [List.mem_cons, List.mem_singleton, List.not_mem_nil, or_false] at hb
    rcases hb with h | h | h | h <;> omega

theorem wrap_int32_of_range (x : Int) (hlo : -2147483648 ≤ x) (hhi : x < 2147483648) :
    wrap_int32 x = x := by
  unfold wrap_int32
  omega

theorem write_bmp_header_layout (datasize : Int) :
    (write_bmp_header datasize).length = 14 ∧
      (write_bmp_header datasize).take 2 = [0x42, 0x4d] ∧
      ((write_bmp_header datasize).drop 2).take 4 =
        four_bytes (wrap_int32 (((BMP_HEADER_SIZE + DIB_HEADER_SIZE : Nat) : Int) + datasize)) ∧
      ((write_bmp_header datasize).drop 10).take 4 = [0x36, 0, 0, 0] := by
  simp [write_bmp_header, four_bytes]

theorem write_dib_header_layout (width height : Int) :
    (write_dib_header width height).length = 40 ∧
      (write_dib_header width height).take 4 = [40, 0, 0, 0] ∧
      ((write_dib_header width height).drop 4).take 4 = four_bytes width ∧
      ((write_dib_header width height).drop 8).take 4 =
        four_bytes (wrap_int32 (-1 * height)) ∧
      ((write_dib_header width height).drop 20).take 4 =
        four_bytes (wrap_int32 (wrap_int32 (width * height) * 2)) := by
  simp [write_dib_header, four_bytes, DIB_HEADER_SIZE]

/-! ## The RGB565 to RGB555 repacking -/

theorem promoted_bits_zero : promoted_bits 0 = 0 := by
  unfold promoted_bits
  omega

/-- The value of `dataout` for the pixel word `raw`: the red field, the top
five bits of the green field and the blue field, packed 5/5/5. -/
theorem write_image_pixel_int16 (raw : Nat) (hraw : raw < 65536) :
    write_image_pixel (int16_of_raw raw) =
      ((1024 * (raw / 2048 % 32) + 32 * (raw / 64 % 32) + raw % 32 : Nat) : Int) := by
  have hp := promoted_bits_int16 raw hraw
  have e1 : (promoted_bits (int16_of_raw raw) &&& 0xf800) >>> 1 =
      2 ^ 10 * (raw / 2048 % 32) := by
    rw [hp, land_f800, Nat.shiftRight_eq_div_pow]
    split_ifs <;> omega
  have e2 : (promoted_bits (int16_of_raw raw) &&& 0x07c0) >>> 1 = 32 * (raw / 64 % 32) := by
    rw [hp, land_07c0, Nat.shiftRight_eq_div_pow]
    split_ifs <;> omega
  have e3 : promoted_bits (int16_of_raw raw) &&& 0x001f = raw % 32 := by
    rw [hp, land_001f]
    split_ifs <;> omega
  have hor1 : 2 ^ 10 * (raw / 2048 % 32) ||| 32 * (raw / 64 % 32) =
      2 ^ 5 * (32 * (raw / 2048 % 32) + raw / 64 % 32) := by
    rw [lor_of_lt 10 _ _ (by omega)]
    omega
  have hor2 : 2 ^ 5 * (32 * (raw / 2048 % 32) + raw / 64 % 32) ||| raw % 32 =
      1024 * (raw / 2048 % 32) + 32 * (raw / 64 % 32) + raw % 32 := by
    rw [lor_of_lt 5 _ _ (by omega)]
    omega
  unfold write_image_pixel
  simp only [e1, e2, e3, promoted_bits_zero, Nat.zero_or]
  have s1 : int16_of_raw (2 ^ 10 * (raw / 2048 % 32)) =
      ((2 ^ 10 * (raw / 2048 % 32) : Nat) : Int) := int16_of_raw_small _ (by omega)
  rw [s1, promoted_bits_natCast _ (by omega), hor1]
  have s2 : int16_of_raw (2 ^ 5 * (32 * (raw / 2048 % 32) + raw / 64 % 32)) =
      ((2 ^ 5 * (32 * (raw / 2048 % 32) + raw / 64 % 32) : Nat) : Int) :=
    int16_of_raw_small _ (by omega)
  rw [s2, promoted_bits_natCast _ (by omega), hor2, int16_of_raw_small _ (by omega)]

/-- The value written for pixel `p` is the repacking of pixel `p` of the file,
whenever the file holds that pixel. -/
theorem write_image_data_getElem? :
    ∀ (file : List Int) (n p : Nat) (datain : Int) (hp : p < file.length), p < n →
      (write_image_data file n datain)[p]? = some (write_image_pixel file[p]) := by
  intro file
  induction file with
  | nil => intro n p datain hp; simp at hp
  | cons d rest ih =>
    intro n p datain hp hpn
    cases n with
    | zero => omega
    | succ m =>
      cases p with
      | zero => simp [write_image_data]
      | succ q =>
        have hq : q < rest.length := by simpa using hp
        simp only [write_image_data, List.getElem?_cons_succ, List.getElem_cons_succ]
        exact ih m q d hq (by omega)

/-- C11: for every 16-bit RGB565 word read into the signed `datain`, the value
written by `write_image_data` is a valid RGB555 word: bit 15 is 0, bits 14-10
are the input's red field (bits 15-11), bits 9-5 the top five bits of its
green field (bits 10-6), bits 4-0 its blue field (bits 4-0). -/
theorem write_image_data_rgb555 (file : List Int) (num_pixels p raw : Nat) (datain : Int)
    (hp : p < num_pixels) (hraw : raw < 65536)
    (hpix : file[p]? = some (int16_of_raw raw)) :
    ∃ dataout, (write_image_data file num_pixels datain)[p]? = some dataout ∧
      raw_of_int16 dataout / 32768 % 2 = 0 ∧
      raw_of_int16 dataout / 1024 % 32 = raw / 2048 % 32 ∧
      raw_of_int16 dataout / 32 % 32 = raw / 64 % 32 ∧
      raw_of_int16 dataout % 32 = raw % 32 ∧
      raw_of_int16 dataout < 32768 ∧ dataout = (raw_of_int16 dataout : Int) := by
  have hplen : p < file.length := by
    by_contra h
    rw [List.getElem?_eq_none (not_lt.mp h)] at hpix
    exact absurd hpix (by simp)
  have hd : file[p] = int16_of_raw raw := by
    rw [List.getElem?_eq_getElem hplen] at hpix
    exact Option.some.inj hpix
  refine ⟨_, write_image_data_getElem? file num_pixels p datain hplen hp, ?_⟩
  have hf := rgb555_fields (raw / 2048 % 32) (raw / 64 % 32) (raw % 32)
    (Nat.mod_lt _ (by decide)) (Nat.mod_lt _ (by decide)) (Nat.mod_lt _ (by decide))
  have hlt : 1024 * (raw / 2048 % 32) + 32 * (raw / 64 % 32) + raw % 32 < 32768 := by omega
  rw [hd, write_image_pixel_int16 raw hraw, raw_of_int16_natCast _ (by omega)]
  exact ⟨by omega, hf.1, hf.2.1, hf.2.2, hlt, rfl⟩

/-- Witness of C11: the word `0xFFFF`, the `int16_t` value -1, as pixel 1 of a
two-pixel file. -/
theorem write_image_data_rgb555_witness :
    ∃ dataout, (write_image_data [0, int16_of_raw 0xFFFF] 2 0)[1]? = some dataout ∧
      raw_of_int16 dataout / 32768 % 2 = 0 ∧
      raw_of_int16 dataout / 1024 % 32 = 0xFFFF / 2048 % 32 ∧
      raw_of_int16 dataout / 32 % 32 = 0xFFFF / 64 % 32 ∧
      raw_of_int16 dataout % 32 = 0xFFFF % 32 ∧
      raw_of_int16 dataout < 32768 ∧ dataout = (raw_of_int16 dataout : Int) :=
  write_image_data_rgb555 [0, int16_of_raw 0xFFFF] 2 1 0xFFFF 0 (by decide) (by decide) rfl

/-- C12: for every height with `0 < height < 2^31` and every `width >= 0` with
`width * height * 2 < 2^31`, the 40 bytes written by `write_dib_header` carry,
least-significant byte first, the width in bytes 4-7, the two's-complement
32-bit encoding of `-height` in bytes 8-11 (which decodes as a signed value to
exactly `-height`), and `width * height * 2` in bytes 20-23. -/
theorem write_dib_header_fields (width height : Int) (hpos : 0 < height)
    (hheight : height < 2147483648) (hwidth : 0 ≤ width)
    (hsize : width * height * 2 < 2147483648) :
    (write_dib_header width height).length = 40 ∧
      (∀ b ∈ write_dib_header width height, b < 256) ∧
      (le32 (((write_dib_header width height).drop 4).take 4) : Int) = width ∧
      (le32 (((write_dib_header width height).drop 8).take 4) : Int) =
        4294967296 - height ∧
      le32_signed (((write_dib_header width height).drop 8).take 4) = -height ∧
      (le32 (((write_dib_header width height).drop 20).take 4) : Int) =
        width * height * 2 := by
  obtain ⟨hlen, _, hw, hh, hs⟩ := write_dib_header_layout width height
  have hprod : 0 ≤ width * height := Int.mul_nonneg hwidth (le_of_lt hpos)
  have hwle : width ≤ width * height := le_mul_of_one_le_right hwidth hpos
  have hneg : wrap_int32 (-1 * height) = -height := by
    rw [wrap_int32_of_range _ (by omega) (by omega)]
    omega
  have hdata : wrap_int32 (wrap_int32 (width * height) * 2) = width * height * 2 := by
    rw [wrap_int32_of_range (width * height) (by omega) (by omega),
      wrap_int32_of_range _ (by omega) (by omega)]
  rw [hneg] at hh
  rw [hdata] at hs
  obtain ⟨w1, _, _, w4⟩ := le32_four_bytes width (by omega) (by omega)
  obtain ⟨n1, n2, _, n4⟩ := le32_four_bytes (-height) (by omega) (by omega)
  obtain ⟨d1, _, _, d4⟩ := le32_four_bytes (width * height * 2) (by omega) (by omega)
  refine ⟨hlen, ?_, ?_, ?_, ?_, ?_⟩
  · intro b hb
    simp only [write_dib_header, hneg, hdata, List.mem_append, List.mem_cons,
      List.mem_singleton, List.not_mem_nil, or_false, DIB_HEADER_SIZE] at hb
    rcases hb with ((((h | h) | h) | h) | h) | h
    · rcases h with h | h | h | h <;> omega
    · exact w4 b h
    · exact n4 b h
    · rcases h with h | h | h | h | h | h | h | h <;> omega
    · exact d4 b h
    · rcases h with h | h | h | h | h | h | h | h | h | h | h | h | h | h | h | h <;> omega
  · rw [hw, w1]; omega
  · rw [hh, n1]; omega
  · rw [hh, n2]
  · rw [hs, d1]; omega

/-- Witness of C12: a 1024 by 600 image. -/
theorem write_dib_header_fields_witness :
    (write_dib_header 1024 600).length = 40 ∧
      (∀ b ∈ write_dib_header 1024 600, b < 256) ∧
      (le32 (((write_dib_header 1024 600).drop 4).take 4) : Int) = 1024 ∧
      (le32 (((write_dib_header 1024 600).drop 8).take 4) : Int) = 4294967296 - 600 ∧
      le32_signed (((write_dib_header 1024 600).drop 8).take 4) = -600 ∧
      (le32 (((write_dib_header 1024 600).drop 20).take 4) : Int) = 1024 * 600 * 2 :=
  write_dib_header_fields 1024 600 (by decide) (by decide) (by decide) (by decide)

/-- Every one of the four bytes written for an `int` is a byte. -/
theorem four_bytes_lt (v : Int) : ∀ b ∈ four_bytes v, b < 256 := by
  intro b hb
  rw [four_bytes_eq] at hb
  simp only [List.mem_cons, List.mem_singleton, List.not_mem_nil, or_false] at hb
  rcases hb with h | h | h | h <;> omega

theorem write_bmp_header_lt (datasize : Int) : ∀ b ∈ write_bmp_header datasize, b < 256 := by
  intro b hb
  simp only [write_bmp_header, List.mem_append, List.mem_cons, List.mem_singleton,
    List.not_mem_nil, or_false] at hb
  rcases hb with (h | h) | h
  · rcases h with h | h <;> omega
  · exact four_bytes_lt _ b h
  · rcases h with h | h | h | h | h | h | h | h <;> omega

theorem write_dib_header_lt (width height : Int) :
    ∀ b ∈ write_dib_header width height, b < 256 := by
  intro b hb
  simp only [write_dib_header, List.mem_append, List.mem_cons, List.mem_singleton,
    List.not_mem_nil, or_false, DIB_HEADER_SIZE] at hb
  rcases hb with ((((h | h) | h) | h) | h) | h
  · rcases h with h | h | h | h <;> omega
  · exact four_bytes_lt _ b h
  · exact four_bytes_lt _ b h
  · rcases h with h | h | h | h | h | h | h | h <;> omega
  · exact four_bytes_lt _ b h
  · rcases h with h | h | h | h | h | h | h | h | h | h | h | h | h | h | h | h <;> omega

/-- C16: for every `datasize` with `0 <= datasize` and `54 + datasize < 2^31`,
`write_bmp_header` writes exactly 14 bytes (`BMP_HEADER_SIZE`), each below 256,
that start with `0x42 0x4D`, whose bytes 2-5 are the four base-256 digits of
`54 + datasize`, least significant first, and so decode little-endian to
`54 + datasize`, whose bytes 6-9 are 0 and whose bytes 10-13 are `0x36 0 0 0`,
decoding to 54; `write_dib_header` writes exactly 40 bytes (`DIB_HEADER_SIZE`),
each below 256, that begin with `40 0 0 0`, the little-endian value 40; so the
pixel-data offset in the first header is the total length of the two
headers. -/
theorem bmp_headers_sizes (datasize width height : Int) (hnonneg : 0 ≤ datasize)
    (hfit : 54 + datasize < 2147483648) :
    (write_bmp_header datasize).length = BMP_HEADER_SIZE ∧ BMP_HEADER_SIZE = 14 ∧
      (∀ b ∈ write_bmp_header datasize, b < 256) ∧
      (write_bmp_header datasize).take 2 = [0x42, 0x4D] ∧
      ((write_bmp_header datasize).drop 2).take 4 =
        [((54 + datasize) % 256).toNat, ((54 + datasize) / 256 % 256).toNat,
          ((54 + datasize) / 65536 % 256).toNat, ((54 + datasize) / 16777216 % 256).toNat] ∧
      (le32 (((write_bmp_header datasize).drop 2).take 4) : Int) = 54 + datasize ∧
      ((write_bmp_header datasize).drop 6).take 4 = [0, 0, 0, 0] ∧
      ((write_bmp_header datasize).drop 10).take 4 = [0x36, 0, 0, 0] ∧
      le32 (((write_bmp_header datasize).drop 10).take 4) = 54 ∧
      (write_dib_header width height).length = DIB_HEADER_SIZE ∧ DIB_HEADER_SIZE = 40 ∧
      (∀ b ∈ write_dib_header width height, b < 256) ∧
      (write_dib_header width height).take 4 = [40, 0, 0, 0] ∧
      le32 ((write_dib_header width height).take 4) = 40 ∧
      le32 (((write_bmp_header datasize).drop 10).take 4) =
        (write_bmp_header datasize).length + (write_dib_header width height).length := by
  obtain ⟨hlen, hmagic, hsize, hoff⟩ := write_bmp_header_layout datasize
  obtain ⟨dlen, dfirst, _, _, _⟩ := write_dib_header_layout width height
  have hsum : wrap_int32 (((BMP_HEADER_SIZE + DIB_HEADER_SIZE : Nat) : Int) + datasize) =
      54 + datasize := by
    have h54 : ((BMP_HEADER_SIZE + DIB_HEADER_SIZE : Nat) : Int) = 54 := rfl
    rw [h54, wrap_int32_of_range _ (by omega) (by omega)]
  rw [hsum] at hsize
  obtain ⟨s1, _, _, _⟩ := le32_four_bytes (54 + datasize) (by omega) (by omega)
  have hoff54 : le32 (((write_bmp_header datasize).drop 10).take 4) = 54 := by
    rw [hoff]; rfl
  have hres : ((write_bmp_header datasize).drop 6).take 4 = [0, 0, 0, 0] := by
    simp [write_bmp_header, four_bytes]
  refine ⟨hlen, rfl, write_bmp_header_lt datasize, hmagic, ?_, ?_, hres, hoff, hoff54, dlen,
    rfl, write_dib_header_lt width height, dfirst, ?_, ?_⟩
  · rw [hsize, four_bytes_eq]
  · rw [hsize, s1]; omega
  · rw [dfirst]; rfl
  · rw [hoff54, hlen, dlen]

/-- Witness of C16: the headers of a 1024 by 600 image. -/
theorem bmp_headers_sizes_witness :
    (write_bmp_header 1228800).length = 14 ∧
      (∀ b ∈ write_bmp_header 1228800, b < 256) ∧
      ((write_bmp_header 1228800).drop 2).take 4 =
        [((54 + 1228800 : Int) % 256).toNat, ((54 + 1228800 : Int) / 256 % 256).toNat,
          ((54 + 1228800 : Int) / 65536 % 256).toNat,
          ((54 + 1228800 : Int) / 16777216 % 256).toNat] ∧
      (le32 (((write_bmp_header 1228800).drop 2).take 4) : Int) = 54 + 1228800 ∧
      (∀ b ∈ write_dib_header 1024 600, b < 256) ∧
      le32 (((write_bmp_header 1228800).drop 10).take 4) =
        (write_bmp_header 1228800).length + (write_dib_header 1024 600).length :=
  have h := bmp_headers_sizes 1228800 1024 600 (by decide) (by decide)
  ⟨h.1, h.2.2.1, h.2.2.2.2.1, h.2.2.2.2.2.1, h.2.2.2.2.2.2.2.2.2.2.2.1,
    h.2.2.2.2.2.2.2.2.2.2.2.2.2.2⟩

end Fb2Bmp

namespace FbLight

open Fb2Png

/-! ## The tone filter -/

theorem lor_mod_65536 (a b : Nat) : (a ||| b) % 65536 = a % 65536 ||| b % 65536 :=
  lor_mod_two_pow a b 16

/-- Storing `pixdata | m` back into the `int16_t pixdata` keeps the low 16 bits
of the OR of the two words. -/
theorem int16_lor (n m : Nat) :
    int16_of_raw (promoted_bits (int16_of_raw n) ||| m) = int16_of_raw (n ||| m) := by
  apply int16_of_raw_congr
  rw [lor_mod_65536, promoted_bits_int16_mod, ← lor_mod_65536]

theorem shiftRight_one (x : Int) : x >>> (1 : Nat) = x / 2 := by
  rw [Int.shiftRight_eq_div_pow]
  norm_num

/-- The three `int`s extracted from the pixel word `raw`: twice the red field,
the green field, twice the blue field. -/
theorem unpack_pixel_int16 (raw : Nat) (hraw : raw < 65536) :
    unpack_pixel (int16_of_raw raw) =
      (((2 * (raw / 2048 % 32) : Nat) : Int), ((raw / 32 % 64 : Nat) : Int),
        ((2 * (raw % 32) : Nat) : Int)) := by
  have hp := promoted_bits_int16 raw hraw
  have e1 : (promoted_bits (int16_of_raw raw) &&& 0xf800) >>> 10 = 2 * (raw / 2048 % 32) := by
    rw [hp, land_f800, Nat.shiftRight_eq_div_pow]
    split_ifs <;> omega
  have e2 : (promoted_bits (int16_of_raw raw) &&& 0x07e0) >>> 5 = raw / 32 % 64 := by
    rw [hp, land_07e0, Nat.shiftRight_eq_div_pow]
    split_ifs <;> omega
  have e3 : (promoted_bits (int16_of_raw raw) &&& 0x001f) <<< 1 = 2 * (raw % 32) := by
    rw [hp, land_001f, Nat.shiftLeft_eq]
    split_ifs <;> omega
  unfold unpack_pixel
  simp only [e1, e2, e3]

/-- The word rebuilt from three values in the 6-bit range: the red value
without its lowest bit, the green value, the blue value without its lowest
bit. -/
theorem repack_pixel_natCast (r g b : Nat) (hr : r < 64) (hg : g < 64) (hb : b < 64) :
    repack_pixel (r : Int) (g : Int) (b : Int) =
      int16_of_raw (2048 * (r / 2) + 32 * g + b / 2) := by
  have a1 : promoted_bits (int16_of_raw (promoted_bits (r : Int) &&& 0x3e)) <<< 10 =
      2 ^ 11 * (r / 2) := by
    rw [promoted_bits_natCast r (by omega), land_003e,
      int16_of_raw_small _ (by omega), promoted_bits_natCast _ (by omega), Nat.shiftLeft_eq]
    omega
  have a2 : promoted_bits (int16_of_raw (promoted_bits (g : Int))) <<< 5 = 32 * g := by
    rw [promoted_bits_natCast g (by omega), int16_of_raw_small _ (by omega),
      promoted_bits_natCast _ (by omega), Nat.shiftLeft_eq]
    omega
  have a3 : promoted_bits (int16_of_raw (promoted_bits (b : Int)) >>> (1 : Nat)) = b / 2 := by
    rw [promoted_bits_natCast b (by omega), int16_of_raw_small _ (by omega), shiftRight_one]
    unfold promoted_bits
    omega
  have hor1 : 2 ^ 11 * (r / 2) ||| 32 * g = 2 ^ 5 * (64 * (r / 2) + g) := by
    rw [lor_of_lt 11 _ _ (by omega)]
    omega
  have hor2 : 2 ^ 5 * (64 * (r / 2) + g) ||| b / 2 = 2048 * (r / 2) + 32 * g + b / 2 := by
    rw [lor_of_lt 5 _ _ (by omega)]
    omega
  unfold repack_pixel
  simp only [a1, a2, a3]
  rw [int16_lor (2 ^ 11 * (r / 2)) (32 * g), hor1, int16_lor, hor2]

theorem repack_pixel_word (r g b : Int) (hr : 0 ≤ r ∧ r ≤ 63) (hg : 0 ≤ g ∧ g ≤ 63)
    (hb : 0 ≤ b ∧ b ≤ 63) :
    raw_of_int16 (repack_pixel r g b) = 2048 * (r.toNat / 2) + 32 * g.toNat + b.toNat / 2 ∧
      repack_pixel r g b = int16_of_raw (2048 * (r.toNat / 2) + 32 * g.toNat + b.toNat / 2) := by
  have hr' : ((r.toNat : Nat) : Int) = r := Int.toNat_of_nonneg hr.1
  have hg' : ((g.toNat : Nat) : Int) = g := Int.toNat_of_nonneg hg.1
  have hb' : ((b.toNat : Nat) : Int) = b := Int.toNat_of_nonneg hb.1
  have h := repack_pixel_natCast r.toNat g.toNat b.toNat (by omega) (by omega) (by omega)
  rw [hr', hg', hb'] at h
  refine ⟨?_, h⟩
  rw [h, raw_of_int16_of_raw]
  omega

theorem correct_rgb_pixel_grey (red grn blu : Int) (h : is_grey red grn blu) :
    correct_rgb_pixel red grn blu = (0x3f - grn, 0x3f - grn, 0x3f - grn) := by
  unfold is_grey at h
  unfold correct_rgb_pixel
  rw [if_pos h]

theorem correct_rgb_pixel_yellow (red grn blu : Int) (hg : ¬ is_grey red grn blu)
    (hy : is_yellow red grn blu) :
    correct_rgb_pixel red grn blu = (red / 2, grn / 2, 0) := by
  unfold is_grey at hg
  unfold is_yellow at hy
  unfold correct_rgb_pixel
  rw [if_neg hg, if_pos hy, shiftRight_one, shiftRight_one]

theorem correct_rgb_pixel_other (red grn blu : Int) (hg : ¬ is_grey red grn blu)
    (hy : ¬ is_yellow red grn blu) :
    correct_rgb_pixel red grn blu = (red, grn, blu) := by
  unfold is_grey at hg
  unfold is_yellow at hy
  unfold correct_rgb_pixel
  rw [if_neg hg, if_neg hy]

/-- The filter keeps three values of the 6-bit range in the 6-bit range. -/
theorem correct_rgb_pixel_range (red grn blu : Int) (hr : 0 ≤ red ∧ red ≤ 63)
    (hg : 0 ≤ grn ∧ grn ≤ 63) (hb : 0 ≤ blu ∧ blu ≤ 63) :
    (0 ≤ (correct_rgb_pixel red grn blu).1 ∧ (correct_rgb_pixel red grn blu).1 ≤ 63) ∧
      (0 ≤ (correct_rgb_pixel red grn blu).2.1 ∧ (correct_rgb_pixel red grn blu).2.1 ≤ 63) ∧
      (0 ≤ (correct_rgb_pixel red grn blu).2.2 ∧ (correct_rgb_pixel red grn blu).2.2 ≤ 63) := by
  by_cases hgrey : is_grey red grn blu
  · rw [correct_rgb_pixel_grey _ _ _ hgrey]
    simp only
    omega
  · by_cases hy : is_yellow red grn blu
    · rw [correct_rgb_pixel_yellow _ _ _ hgrey hy]
      simp only
      omega
    · rw [correct_rgb_pixel_other _ _ _ hgrey hy]
      exact ⟨hr, hg, hb⟩

/-- With enough pixels in the file `process_file` returns one value per pixel,
in source order. -/
theorem process_file_loop_spec :
    ∀ (file : List Int) (n : Nat), n ≤ file.length →
      process_file_loop file (n : Int) = some ((file.take n).map process_pixel) := by
  intro file
  induction file with
  | nil =>
    intro n hn
    have hn0 : n = 0 := by simpa using hn
    subst hn0
    simp [process_file_loop]
  | cons d rest ih =>
    intro n hn
    cases n with
    | zero => simp [process_file_loop]
    | succ m =>
      have hm : m ≤ rest.length := by simpa using hn
      have h1 : ((m + 1 : Nat) : Int) ≠ 0 := by omega
      have h2 : ((m + 1 : Nat) : Int) - 1 = (m : Int) := by omega
      simp only [process_file_loop, h1, ne_eq, not_false_eq_true, if_true, h2, ih m hm,
        List.take_succ_cons, List.map_cons]

theorem process_file_getElem? (file : List Int) (n p : Nat) (hn : n ≤ file.length)
    (hp : p < n) (pixdata : Int) (hpix : file[p]? = some pixdata) :
    ∃ out, process_file file (n : Int) = some out ∧ out.length = n ∧
      out[p]? = some (process_pixel pixdata) := by
  refine ⟨_, process_file_loop_spec file n hn, by simp [hn], ?_⟩
  rw [List.getElem?_map, List.getElem?_take_of_lt hp, hpix]
  rfl

/-- The fields of the word rebuilt from three values of the 6-bit range: the
green field is the green value, the red and blue fields are the halves of the
red and blue values. -/
theorem repack_pixel_fields (r g b : Int) (hr : 0 ≤ r ∧ r ≤ 63) (hg : 0 ≤ g ∧ g ≤ 63)
    (hb : 0 ≤ b ∧ b ≤ 63) :
    ((raw_of_int16 (repack_pixel r g b) / 32 % 64 : Nat) : Int) = g ∧
      ((raw_of_int16 (repack_pixel r g b) / 2048 % 32 : Nat) : Int) = r / 2 ∧
      ((raw_of_int16 (repack_pixel r g b) % 32 : Nat) : Int) = b / 2 := by
  obtain ⟨hw, _⟩ := repack_pixel_word r g b hr hg hb
  have hf := rgb565_fields (r.toNat / 2) g.toNat (b.toNat / 2) (by omega) (by omega) (by omega)
  rw [hw, hf.1, hf.2.1, hf.2.2]
  refine ⟨?_, ?_, ?_⟩ <;> omega

/-- The value written for a pixel word whose 6-bit values pass the grey test. -/
theorem process_pixel_grey (raw : Nat) (hraw : raw < 65536)
    (hgrey : is_grey ((2 * (raw / 2048 % 32) : Nat) : Int) ((raw / 32 % 64 : Nat) : Int)
      ((2 * (raw % 32) : Nat) : Int)) :
    process_pixel (int16_of_raw raw) =
      int16_of_raw (2048 * ((63 - raw / 32 % 64) / 2) + 32 * (63 - raw / 32 % 64) +
        (63 - raw / 32 % 64) / 2) := by
  have hsub : (0x3f : Int) - ((raw / 32 % 64 : Nat) : Int) = ((63 - raw / 32 % 64 : Nat) : Int) := by
    omega
  unfold process_pixel
  simp only [unpack_pixel_int16 raw hraw, correct_rgb_pixel_grey _ _ _ hgrey, hsub]
  exact repack_pixel_natCast _ _ _ (by omega) (by omega) (by omega)

/-- The value written for a pixel word that is neither grey nor yellow is the
value read. -/
theorem process_pixel_other (raw : Nat) (hraw : raw < 65536)
    (hgrey : ¬ is_grey ((2 * (raw / 2048 % 32) : Nat) : Int) ((raw / 32 % 64 : Nat) : Int)
      ((2 * (raw % 32) : Nat) : Int))
    (hyellow : ¬ is_yellow ((2 * (raw / 2048 % 32) : Nat) : Int) ((raw / 32 % 64 : Nat) : Int)
      ((2 * (raw % 32) : Nat) : Int)) :
    process_pixel (int16_of_raw raw) = int16_of_raw raw := by
  unfold process_pixel
  simp only [unpack_pixel_int16 raw hraw, correct_rgb_pixel_other _ _ _ hgrey hyellow]
  rw [repack_pixel_natCast _ _ _ (by omega) (by omega) (by omega)]
  congr 1
  omega

/-- C13: black becomes white, white becomes black, and greys invert.  For every
RGB565 word that the filter classifies as grey (with `r6 = 2 * red5`,
`g6 = green6`, `b6 = 2 * blue5`, the values the filter extracts: `|g6 - r6| < 5`
and `|g6 - b6| < 5`), the word written by `process_file` has the green field
`63 - g6` and red and blue fields both `(63 - g6) / 2`; `0x0000` is written as
`0xFFFF` and `0xFFFF` as `0x0000`. -/
theorem process_file_inverts_grey (file : List Int) (numpixels p raw : Nat)
    (hn : numpixels ≤ file.length) (hp : p < numpixels) (hraw : raw < 65536)
    (hpix : file[p]? = some (int16_of_raw raw))
    (hgrey : is_grey ((2 * (raw / 2048 % 32) : Nat) : Int) ((raw / 32 % 64 : Nat) : Int)
      ((2 * (raw % 32) : Nat) : Int)) :
    unpack_pixel (int16_of_raw raw) =
        (((2 * (raw / 2048 % 32) : Nat) : Int), ((raw / 32 % 64 : Nat) : Int),
          ((2 * (raw % 32) : Nat) : Int)) ∧
      (∃ out pixdata, process_file file (numpixels : Int) = some out ∧
        out[p]? = some pixdata ∧
        raw_of_int16 pixdata / 32 % 64 = 63 - raw / 32 % 64 ∧
        raw_of_int16 pixdata / 2048 % 32 = (63 - raw / 32 % 64) / 2 ∧
        raw_of_int16 pixdata % 32 = (63 - raw / 32 % 64) / 2) ∧
      process_file [int16_of_raw 0x0000] 1 = some [int16_of_raw 0xFFFF] ∧
      process_file [int16_of_raw 0xFFFF] 1 = some [int16_of_raw 0x0000] := by
  refine ⟨unpack_pixel_int16 raw hraw, ?_, by decide, by decide⟩
  obtain ⟨out, hout, _, hget⟩ := process_file_getElem? file numpixels p hn hp _ hpix
  refine ⟨out, _, hout, hget, ?_⟩
  rw [process_pixel_grey raw hraw hgrey, raw_of_int16_of_raw]
  have hx : 63 - raw / 32 % 64 ≤ 63 := Nat.sub_le _ _
  generalize 63 - raw / 32 % 64 = x at hx ⊢
  have hlt : 2048 * (x / 2) + 32 * x + x / 2 < 65536 := by omega
  rw [Nat.mod_eq_of_lt hlt]
  have hf := rgb565_fields (x / 2) x (x / 2) (by omega) (by omega) (by omega)
  exact ⟨hf.2.1, hf.1, hf.2.2⟩

/-- Witness of C13: the dark grey word `0x2104` (red 4, green 8, blue 4) as the
only pixel of a file. -/
theorem process_file_inverts_grey_witness :
    ∃ out pixdata, process_file [int16_of_raw 0x2104] ((1 : Nat) : Int) = some out ∧
      out[0]? = some pixdata ∧
      raw_of_int16 pixdata / 32 % 64 = 63 - 0x2104 / 32 % 64 ∧
      raw_of_int16 pixdata / 2048 % 32 = (63 - 0x2104 / 32 % 64) / 2 ∧
      raw_of_int16 pixdata % 32 = (63 - 0x2104 / 32 % 64) / 2 :=
  (process_file_inverts_grey [int16_of_raw 0x2104] 1 0 0x2104 (by decide) (by decide)
    (by decide) rfl (by unfold is_grey; decide)).2.1

/-- C14, as stated, fails: the values `(40, 40, 0)` are in the 6-bit range and
do not pass the grey test, yet `correct_rgb_pixel` changes them to
`(20, 20, 0)`, through its yellow branch. -/
theorem yellow_pixel_changed_counterexample :
    ¬ is_grey 40 40 0 ∧ correct_rgb_pixel 40 40 0 = (20, 20, 0) ∧
      correct_rgb_pixel 40 40 0 ≠ (40, 40, 0) ∧
      unpack_pixel (int16_of_raw 0xA500) = (40, 40, 0) := by
  refine ⟨by unfold is_grey; decide, by decide, by decide, by decide⟩

/-- C14, amended: `correct_rgb_pixel` changes a pixel exactly when it is a shade
of grey or yellow.  For values in 0..63: when `|grn - red| < 5` and
`|grn - blu| < 5` the resulting `grn` differs from the input `grn`; otherwise,
when `red > 0x20`, `grn > 0x20` and `blu < 0x08`, `red` and `grn` are halved
and `blu` becomes 0, which changes the pixel; otherwise all three values are
left unchanged. -/
theorem correct_rgb_pixel_changes_grey_or_yellow (red grn blu : Int)
    (_hr : 0 ≤ red ∧ red ≤ 63) (_hg : 0 ≤ grn ∧ grn ≤ 63) (_hb : 0 ≤ blu ∧ blu ≤ 63) :
    (is_grey red grn blu → (correct_rgb_pixel red grn blu).2.1 ≠ grn) ∧
      (¬ is_grey red grn blu → is_yellow red grn blu →
        correct_rgb_pixel red grn blu = (red / 2, grn / 2, 0) ∧
        correct_rgb_pixel red grn blu ≠ (red, grn, blu)) ∧
      (¬ is_grey red grn blu → ¬ is_yellow red grn blu →
        correct_rgb_pixel red grn blu = (red, grn, blu)) := by
  refine ⟨?_, ?_, ?_⟩
  · intro h
    rw [correct_rgb_pixel_grey _ _ _ h]
    simp only
    omega
  · intro hgrey hy
    have hred : 0x20 < red := hy.1
    rw [correct_rgb_pixel_yellow _ _ _ hgrey hy]
    refine ⟨rfl, ?_⟩
    intro heq
    have h1 : red / 2 = red := congrArg Prod.fst heq
    omega
  · intro hgrey hy
    exact correct_rgb_pixel_other _ _ _ hgrey hy

/-- Witness of the amended C14: the yellow values `(40, 40, 0)`. -/
theorem correct_rgb_pixel_changes_grey_or_yellow_witness :
    correct_rgb_pixel 40 40 0 = (40 / 2, 40 / 2, 0) ∧
      correct_rgb_pixel 40 40 0 ≠ (40, 40, 0) :=
  (correct_rgb_pixel_changes_grey_or_yellow 40 40 0 (by decide) (by decide)
    (by decide)).2.1 (by unfold is_grey; decide) (by unfold is_yellow; decide)

/-- C17: the unpacking and repacking of the filter is lossless on untouched
pixels.  For every RGB565 word that is neither grey nor yellow (on the values
`r6 = 2 * red5`, `g6 = green6`, `b6 = 2 * blue5`), the 16-bit word written by
`process_file` is the word read, and the `int16_t` written is the `int16_t`
read. -/
theorem process_file_lossless_on_untouched (file : List Int) (numpixels p raw : Nat)
    (hn : numpixels ≤ file.length) (hp : p < numpixels) (hraw : raw < 65536)
    (hpix : file[p]? = some (int16_of_raw raw))
    (hgrey : ¬ is_grey ((2 * (raw / 2048 % 32) : Nat) : Int) ((raw / 32 % 64 : Nat) : Int)
      ((2 * (raw % 32) : Nat) : Int))
    (hyellow : ¬ is_yellow ((2 * (raw / 2048 % 32) : Nat) : Int) ((raw / 32 % 64 : Nat) : Int)
      ((2 * (raw % 32) : Nat) : Int)) :
    ∃ out pixdata, process_file file (numpixels : Int) = some out ∧
      out[p]? = some pixdata ∧ raw_of_int16 pixdata = raw ∧
      pixdata = int16_of_raw raw := by
  obtain ⟨out, hout, _, hget⟩ := process_file_getElem? file numpixels p hn hp _ hpix
  refine ⟨out, _, hout, hget, ?_, process_pixel_other raw hraw hgrey hyellow⟩
  rw [process_pixel_other raw hraw hgrey hyellow, raw_of_int16_of_raw]
  exact Nat.mod_eq_of_lt hraw

/-- Witness of C17: the pure red word `0xF800`, a negative `int16_t`. -/
theorem process_file_lossless_on_untouched_witness :
    ∃ out pixdata, process_file [int16_of_raw 0xF800] ((1 : Nat) : Int) = some out ∧
      out[0]? = some pixdata ∧ raw_of_int16 pixdata = 0xF800 ∧
      pixdata = int16_of_raw 0xF800 :=
  process_file_lossless_on_untouched [int16_of_raw 0xF800] 1 0 0xF800 (by decide) (by decide)
    (by decide) rfl (by unfold is_grey; decide) (by unfold is_yellow; decide)

/-- C18: `correct_rgb_pixel` keeps every channel in the 6-bit range: for values
in 0..63 the three values after the call are again in 0..63.  So the fields
repacked by `process_file` do not overlap: bits 10-5 of the word written are
the returned `grn`, bits 15-11 the returned `red` halved, bits 4-0 the
returned `blu` halved; this holds for the values that `process_file` extracts
from any 16-bit word. -/
theorem correct_rgb_pixel_keeps_range (red grn blu : Int)
    (hr : 0 ≤ red ∧ red ≤ 63) (hg : 0 ≤ grn ∧ grn ≤ 63) (hb : 0 ≤ blu ∧ blu ≤ 63) :
    ((0 ≤ (correct_rgb_pixel red grn blu).1 ∧ (correct_rgb_pixel red grn blu).1 ≤ 63) ∧
      (0 ≤ (correct_rgb_pixel red grn blu).2.1 ∧ (correct_rgb_pixel red grn blu).2.1 ≤ 63) ∧
      (0 ≤ (correct_rgb_pixel red grn blu).2.2 ∧ (correct_rgb_pixel red grn blu).2.2 ≤ 63)) ∧
    (((raw_of_int16 (repack_pixel (correct_rgb_pixel red grn blu).1
          (correct_rgb_pixel red grn blu).2.1 (correct_rgb_pixel red grn blu).2.2)
          / 32 % 64 : Nat) : Int) = (correct_rgb_pixel red grn blu).2.1 ∧
      ((raw_of_int16 (repack_pixel (correct_rgb_pixel red grn blu).1
          (correct_rgb_pixel red grn blu).2.1 (correct_rgb_pixel red grn blu).2.2)
          / 2048 % 32 : Nat) : Int) = (correct_rgb_pixel red grn blu).1 / 2 ∧
      ((raw_of_int16 (repack_pixel (correct_rgb_pixel red grn blu).1
          (correct_rgb_pixel red grn blu).2.1 (correct_rgb_pixel red grn blu).2.2)
          % 32 : Nat) : Int) = (correct_rgb_pixel red grn blu).2.2 / 2) ∧
    (∀ raw : Nat, raw < 65536 →
      (0 ≤ (unpack_pixel (int16_of_raw raw)).1 ∧ (unpack_pixel (int16_of_raw raw)).1 ≤ 63) ∧
      (0 ≤ (unpack_pixel (int16_of_raw raw)).2.1 ∧
        (unpack_pixel (int16_of_raw raw)).2.1 ≤ 63) ∧
      (0 ≤ (unpack_pixel (int16_of_raw raw)).2.2 ∧
        (unpack_pixel (int16_of_raw raw)).2.2 ≤ 63) ∧
      process_pixel (int16_of_raw raw) =
        repack_pixel
          (correct_rgb_pixel (unpack_pixel (int16_of_raw raw)).1
            (unpack_pixel (int16_of_raw raw)).2.1 (unpack_pixel (int16_of_raw raw)).2.2).1
          (correct_rgb_pixel (unpack_pixel (int16_of_raw raw)).1
            (unpack_pixel (int16_of_raw raw)).2.1 (unpack_pixel (int16_of_raw raw)).2.2).2.1
          (correct_rgb_pixel (unpack_pixel (int16_of_raw raw)).1
            (unpack_pixel (int16_of_raw raw)).2.1
            (unpack_pixel (int16_of_raw raw)).2.2).2.2) := by
  obtain ⟨h1, h2, h3⟩ := correct_rgb_pixel_range red grn blu hr hg hb
  refine ⟨⟨h1, h2, h3⟩, repack_pixel_fields _ _ _ h1 h2 h3, ?_⟩
  intro raw hraw
  rw [unpack_pixel_int16 raw hraw]
  refine ⟨?_, ?_, ?_, ?_⟩
  · simp only; omega
  · simp only; omega
  · simp only; omega
  · unfold process_pixel
    rw [unpack_pixel_int16 raw hraw]

/-- Witness of C18: the yellow values `(62, 63, 6)`. -/
theorem correct_rgb_pixel_keeps_range_witness :
    (0 ≤ (correct_rgb_pixel 62 63 6).1 ∧ (correct_rgb_pixel 62 63 6).1 ≤ 63) ∧
      (0 ≤ (correct_rgb_pixel 62 63 6).2.1 ∧ (correct_rgb_pixel 62 63 6).2.1 ≤ 63) ∧
      (0 ≤ (correct_rgb_pixel 62 63 6).2.2 ∧ (correct_rgb_pixel 62 63 6).2.2 ≤ 63) :=
  (correct_rgb_pixel_keeps_range 62 63 6 (by decide) (by decide) (by decide)).1

end FbLight
